import Mathlib

/-!
Verification of the concurrent key/value database server (src/db.c, src/server.c).

C strings are modelled as `List Char` (one `Char` per byte; all keys and values
handled by the program are whitespace-delimited byte tokens). The binary search
tree of db.c is modelled by the inductive type `Node`, with `Node.nil` playing
the role of a NULL child pointer. The permanent root sentinel (`head` in db.c,
with empty key and value) is the top `Node` of the modelled tree, so the whole
database state is a single `Node` value whose key is `[]`.

Mutation through parent pointers is modelled by structural rebuilding: the C
functions locate a node via `search` starting from the locked parent and then
assign one child slot of the parent; the Lean functions perform the same
comparisons and rebuild the tree along the traversed path, leaving every other
node unchanged.
-/

set_option maxHeartbeats 1000000
set_option maxRecDepth 100000

/-- C `strcmp` on byte strings, three-valued. Characters are compared by their
code value, as `strcmp` compares unsigned bytes. -/
def strcmp : List Char → List Char → Ordering
  | [], [] => .eq
  | [], _ :: _ => .lt
  | _ :: _, [] => .gt
  | a :: as, b :: bs => if a < b then .lt else if b < a then .gt else strcmp as bs

/-- The node structure of db.c: `name`, `value`, `lchild`, `rchild`.
`nil` models a NULL node pointer. The per-node rwlock is not part of the
functional state; lock traffic is modelled separately (see `db_removeT`). -/
inductive Node where
  | nil : Node
  | node (name value : List Char) (lchild rchild : Node) : Node
deriving DecidableEq, Repr

/-- The initial tree: just the permanent head sentinel
`node_t head = {"", "", 0, 0, ...}` of db.c with no children. -/
def head0 : Node := .node [] [] .nil .nil

/-- The constant `MAXLEN` of db.c. -/
def MAXLEN : Nat := 256

/-- The function `node_constructor` of db.c. Fails (returns NULL, here `none`) when the key
or value is longer than `MAXLEN` bytes, or when an allocation fails; the
possibility of `malloc` failure is modelled by the `allocOk` parameter.
On success the stored key and value are the first `MAXLEN - 1 = 255` bytes of
the arguments, because `snprintf(new_node->name, MAXLEN, "%s", arg_name)`
truncates to 255 bytes plus NUL (a 256-byte argument passes the length test but
is truncated on store). -/
def node_constructor (allocOk : Bool) (name value : List Char) : Option Node :=
  if name.length > MAXLEN || value.length > MAXLEN then none
  else if !allocOk then none
  else some (.node (name.take 255) (value.take 255) .nil .nil)

/-- The function `search` of db.c, in the configuration used by `db_query`
(`parentpp == 0`): starting at the locked parent `p`, descend left if
`strcmp(name, parent->name) < 0` and right otherwise; if the chosen child is
NULL the search fails, if the child's name matches it is the target.
Returns the target subtree, if found. -/
def search (name : List Char) : Node → Option Node
  | .nil => none
  | .node pn _ pl pr =>
    if strcmp name pn = .lt then
      match pl with
      | .nil => none
      | .node cn _ _ _ =>
        if strcmp name cn = .eq then some pl else search name pl
    else
      match pr with
      | .nil => none
      | .node cn _ _ _ =>
        if strcmp name cn = .eq then some pr else search name pr

/-- The `value` field of a node (`[]` for the NULL node). -/
def Node.value : Node → List Char
  | .nil => []
  | .node _ v _ _ => v

/-- The function `db_query` of db.c: search from the head in read mode; on failure write
`"not found"` into the result buffer, on success write the target's value.
The result buffer (`BUFLEN` bytes, from the assignment's comm.h, not under
src/) is larger than every possible reply, so the `snprintf` copies are
modelled without truncation. -/
def db_query (t : Node) (name : List Char) : List Char :=
  match search name t with
  | none => "not found".data
  | some target => target.value

/-- The search-and-attach recursion of `db_add` of db.c: `search` with
`parentpp != 0` in write mode, followed by `db_add`'s assignment of `newnode`
to the parent's child slot chosen by `strcmp(name, parent->name) < 0`.
`none` means the key was found (db_add returns 0 and changes nothing);
`some p'` is the rebuilt subtree after the parent's slot assignment.
Note db.c assigns `newnode` without checking it for NULL, so `nw` may be
`Node.nil` here, exactly as in the C code. -/
def addSearch (name : List Char) (nw : Node) : Node → Option Node
  | .nil => none
  | .node pn pv pl pr =>
    if strcmp name pn = .lt then
      match pl with
      | .nil => some (.node pn pv nw pr)
      | .node cn _ _ _ =>
        if strcmp name cn = .eq then none
        else (addSearch name nw pl).map (fun l' => .node pn pv l' pr)
    else
      match pr with
      | .nil => some (.node pn pv pl nw)
      | .node cn _ _ _ =>
        if strcmp name cn = .eq then none
        else (addSearch name nw pr).map (fun r' => .node pn pv pl r')

/-- The function `db_add` of db.c. Returns the new tree and the C return value
(`true` = 1 = "added", `false` = 0 = "already in database").
When the key is absent, db.c calls `node_constructor` and stores its result in
the parent's child slot *without checking for NULL*, then returns 1; this is
modelled by converting a `none` constructor result to the NULL child
`Node.nil`. -/
def db_add (allocOk : Bool) (t : Node) (name value : List Char) : Node × Bool :=
  let nw : Node :=
    match node_constructor allocOk name value with
    | none => .nil
    | some n => n
  match addSearch name nw t with
  | none => (t, false)
  | some t' => (t', true)

/-- The successor-chain walk of `db_remove` of db.c (two-child case): starting
at `next = dnode->rchild`, follow `lchild` pointers to the smallest node of the
subtree, returning its name and value and the subtree with that node spliced
out (`*pnext = next->rchild`). -/
def spliceMin : Node → List Char × List Char × Node
  | .nil => ([], [], .nil)
  | .node n v l r =>
    match l with
    | .nil => (n, v, r)
    | .node _ _ _ _ =>
      let res := spliceMin l
      (res.1, res.2.1, .node n v res.2.2 r)

/-- The replacement subtree for a found target node in `db_remove` of db.c:
no right child: the parent's slot gets `dnode->lchild`;
no left child: the parent's slot gets `dnode->rchild`;
two children: the target keeps its position but receives the successor's
name and value (each truncated to 255 bytes by
`snprintf(dnode->name, MAXLEN, ...)`), and the successor is spliced out of
the right subtree. -/
def removeNode : Node → Node
  | .nil => .nil
  | .node _ _ dl dr =>
    match dr with
    | .nil => dl
    | .node _ _ _ _ =>
      match dl with
      | .nil => dr
      | .node _ _ _ _ =>
        let res := spliceMin dr
        .node (res.1.take 255) (res.2.1.take 255) dl res.2.2

/-- The search-and-splice recursion of `db_remove` of db.c: `search` with
`parentpp != 0` in write mode, followed by the parent-slot assignment of the
appropriate removal case. `none` means the key was not found (db_remove
returns 0 and changes nothing). -/
def removeSearch (name : List Char) : Node → Option Node
  | .nil => none
  | .node pn pv pl pr =>
    if strcmp name pn = .lt then
      match pl with
      | .nil => none
      | .node cn _ _ _ =>
        if strcmp name cn = .eq then some (.node pn pv (removeNode pl) pr)
        else (removeSearch name pl).map (fun l' => .node pn pv l' pr)
    else
      match pr with
      | .nil => none
      | .node cn _ _ _ =>
        if strcmp name cn = .eq then some (.node pn pv pl (removeNode pr))
        else (removeSearch name pr).map (fun r' => .node pn pv pl r')

/-- The function `db_remove` of db.c. Returns the new tree and the C return value
(`true` = 1 = "removed", `false` = 0 = "not in database"). -/
def db_remove (t : Node) (name : List Char) : Node × Bool :=
  match removeSearch name t with
  | none => (t, false)
  | some t' => (t', true)

/-- C `isspace` for the default locale, as consumed by `sscanf`'s `%s`. -/
def isspace (c : Char) : Bool :=
  c = ' ' || c = '\t' || c = '\n' || c = '\x0b' || c = '\x0c' || c = '\r'

/-- One `%255s` conversion of `sscanf`: skip whitespace; fail if the input is
exhausted; otherwise consume up to 255 non-whitespace bytes as the token,
leaving the rest of the input (including the unread tail of an over-long
token) unconsumed. -/
def scanToken (s : List Char) : Option (List Char × List Char) :=
  let s' := s.dropWhile isspace
  if s' = [] then none
  else
    let tok := (s'.takeWhile (fun c => !isspace c)).take 255
    some (tok, s'.drop tok.length)

/-- The call `sscanf(s, "%255s %255s", name, value)` returning both tokens, or `none`
when fewer than two conversions succeed. -/
def scan2 (s : List Char) : Option (List Char × List Char) :=
  match scanToken s with
  | none => none
  | some (n, rest) =>
    match scanToken rest with
    | none => none
    | some (v, _) => some (n, v)

/-- The function `interpret_command` of db.c, acting on the tree state. Returns the new
tree and the response string. The `f` (batch file) branch reads the file
system and is outside this embedding; it is mapped to `none`. The response
buffer length `len` (`BUFLEN` from the missing comm.h) exceeds every reply
produced here, so the `snprintf` calls are modelled without truncation.
`allocOk` is the `malloc`-success assumption threaded to `db_add`. -/
def interpret_command (allocOk : Bool) (t : Node) (command : List Char) :
    Option (Node × List Char) :=
  if command.length ≤ 1 then some (t, "ill-formed command".data)
  else
    match command with
    | [] => some (t, "ill-formed command".data)
    | c :: rest =>
      if c = 'q' then
        match scanToken rest with
        | none => some (t, "ill-formed command".data)
        | some (name, _) =>
          let resp := db_query t name
          some (t, if resp.length = 0 then "not found".data else resp)
      else if c = 'a' then
        match scan2 rest with
        | none => some (t, "ill-formed command".data)
        | some (name, value) =>
          let res := db_add allocOk t name value
          some (res.1, if res.2 then "added".data else "already in database".data)
      else if c = 'd' then
        match scanToken rest with
        | none => some (t, "ill-formed command".data)
        | some (name, _) =>
          let res := db_remove t name
          some (res.1, if res.2 then "removed".data else "not in database".data)
      else if c = 'f' then
        none
      else some (t, "ill-formed command".data)

/-- The tree after `a x 1` on the empty database: the head sentinel with the
single data node `x -> 1` as its right child. -/
def tX : Node := .node [] [] .nil (.node ['x'] ['1'] .nil .nil)

/-- The keys of the tree in in-order traversal order (left subtree, node,
right subtree); for the whole tree this includes the head sentinel's empty
key, which comes first. -/
def inorderKeys : Node → List (List Char)
  | .nil => []
  | .node n _ l r => inorderKeys l ++ n :: inorderKeys r

/-- All keys of the tree satisfy the (Boolean) predicate `q`. -/
def allKeysB (q : List Char → Bool) : Node → Bool
  | .nil => true
  | .node n _ l r => q n && allKeysB q l && allKeysB q r

/-- All keys of the tree satisfy `q` (propositional version). -/
def ForallKeys (q : List Char → Prop) : Node → Prop
  | .nil => True
  | .node n _ l r => q n ∧ ForallKeys q l ∧ ForallKeys q r

/-- The BST order invariant, node-locally: every key of the left subtree
compares strictly less (by `strcmp`) than the node's key and every key of the
right subtree strictly greater. -/
def BST : Node → Prop
  | .nil => True
  | .node n _ l r =>
    ForallKeys (fun k => strcmp k n = .lt) l ∧
    ForallKeys (fun k => strcmp n k = .lt) r ∧
    BST l ∧ BST r

/-- Boolean version of `BST`. -/
def BSTb : Node → Bool
  | .nil => true
  | .node n _ l r =>
    allKeysB (fun k => strcmp k n == .lt) l &&
    allKeysB (fun k => strcmp n k == .lt) r &&
    BSTb l && BSTb r

/-- A key list is strictly increasing under `strcmp`. -/
def keysSorted : List (List Char) → Bool
  | [] => true
  | [_] => true
  | a :: b :: rest => (strcmp a b == .lt) && keysSorted (b :: rest)

/-- One database mutation, as issued by some client: a `db_add` call (with its
`malloc`-success environment bit) or a `db_remove` call. -/
inductive Op where
  | add (allocOk : Bool) (name value : List Char) : Op
  | remove (name : List Char) : Op

/-- Apply one operation to the tree (rooted at the head sentinel). -/
def applyOp (t : Node) : Op → Node
  | .add ok n v => (db_add ok t n v).1
  | .remove n => (db_remove t n).1

/-- Apply a finite sequence of operations to the tree, in order. -/
def applyOps (t : Node) (ops : List Op) : Node := ops.foldl applyOp t

/-- The state invariant of the database tree: BST order for the whole tree
(head sentinel included), every stored key at most 255 bytes (which
`node_constructor`'s `snprintf` truncation guarantees for every stored key),
and the permanent head sentinel with empty key and value at the root. -/
def dbInv (t : Node) : Prop :=
  BST t ∧ ForallKeys (fun k => k.length ≤ 255) t ∧ ∃ l r, t = Node.node [] [] l r

/-- An operation whose key argument is a token the command interpreter could
actually have produced: nonempty and at most 255 bytes (the `%255s` field
width). `remove` is unrestricted. -/
def Op.validb : Op → Bool
  | .add _ n _ => !n.isEmpty && n.length ≤ 255
  | .remove _ => true

/-- The insertion sequence of testable property 4 of the spec: keys
5,2,8,1,3,7,9,6 in that order (values equal to the keys). -/
def opsC3 : List Op :=
  [.add true ['5'] ['5'], .add true ['2'] ['2'], .add true ['8'] ['8'],
   .add true ['1'] ['1'], .add true ['3'] ['3'], .add true ['7'] ['7'],
   .add true ['9'] ['9'], .add true ['6'] ['6']]

/-- A well-formed wire-protocol token: nonempty, at most 255 bytes,
whitespace-free. -/
def validToken (y : List Char) : Bool :=
  !y.isEmpty && y.length ≤ 255 && y.all (fun c => !isspace c)

/-!
## Model of the shutdown sequence (server.c: main, delete_all, run_client,
thread_cleanup)

An interleaving model of the main thread's end-of-input shutdown path and the
client worker threads. Each transition is one mutex-protected critical section
of server.c (regions protected by `thread_list_mutex` and/or
`server.server_mutex` are atomic with respect to every other thread, because
all conflicting accesses take the same mutex).
-/

/-- Locations of one client worker thread (run_client / thread_cleanup):
`start`: created by `client_constructor`, before the `server_active` check;
`serving`: registered and counted, inside the `comm_serve` loop;
`inDb`: executing `interpret_command` (hence possibly a tree operation);
`cleaning`: left the loop (end-of-stream or acted-on cancellation), inside
`thread_cleanup`, still counted;
`gone`: deregistered and decremented (or refused at admission). -/
inductive WLoc where
  | start | serving | inDb | cleaning | gone
deriving DecidableEq, Repr

/-- Locations of the main thread after startup:
`running`: the administrative console loop;
`cancelling`: end-of-input seen, inside `delete_all` after `server_active = 0`;
`waiting`: in the `pthread_cond_wait` loop on `server.num_client_threads`;
`teardown`: past the wait loop, running `db_cleanup`;
`done`: shutdown complete. -/
inductive MLoc where
  | running | cancelling | waiting | teardown | done
deriving DecidableEq, Repr

/-- Location of the signal-handler thread within one SIGINT delivery. -/
inductive SigLoc where
  | idle | deactivated | cancelled | restored
deriving DecidableEq, Repr

/-- The shared server state of server.c relevant to shutdown:
`active` = `server_active`, `count` = `server.num_client_threads`,
`workers` = the locations of all worker threads ever created,
`mainLoc` = the main thread's location,
`sigLoc` = the signal-handler thread's location (monitor_signal). -/
structure SrvState where
  active : Bool
  count : Nat
  workers : List WLoc
  mainLoc : MLoc
  sigLoc : SigLoc
deriving DecidableEq, Repr

/-- A worker in this location is counted in `server.num_client_threads`. -/
def isActiveW : WLoc → Bool
  | .serving => true
  | .inDb => true
  | .cleaning => true
  | _ => false

/-- Number of workers currently counted. -/
def activeCount (ws : List WLoc) : Nat := ws.countP isActiveW

/-- The interleaving step relation of the server: the worker threads, the main
thread's end-of-input shutdown path, and the SIGINT-handler thread
(monitor_signal). Each constructor is one critical section of server.c:
`spawn`: the listener accepts a connection and `client_constructor` creates a
worker; `admitYes`/`admitNo`: run_client's `server_active` check plus (when
active) registration and `num_client_threads++`, all under
`thread_list_mutex`; `enterDb`/`exitDb`: the worker starts/finishes an
`interpret_command` call; `leaveLoop`: the worker leaves the serve loop
(end-of-stream, or cancellation acting at a cancellation point — note no tree
operation contains a cancellation point); `finishCleanup`: `thread_cleanup`
deregisters and decrements; `mainEof`: `read` returns 0 and `delete_all` sets
`server_active = 0`; `mainCancelAll`: `delete_all`'s `pthread_cancel` loop
(cancellation only takes effect at the workers' cancellation points, so it has
no immediate state effect here); `mainObserveZero`: the condition-wait loop of
main exits, which requires `num_client_threads == 0`; `mainFinish`:
`db_cleanup` completes; `sigDeactivate`: a SIGINT arrives and the handler's
`delete_all` sets `server_active = 0` (server.c:251); `sigCancelWorkers`:
that `delete_all`'s cancel loop; `sigReactivate`: monitor_signal re-sets
`server_active = 1` (server.c:371); `sigNext`: the handler loops back to
`sigwait`. The handler may step at any main location: it is joined only by
`sig_handler_destructor` after the wait loop (server.c:523), and letting it
step even later only adds behaviours. -/
inductive SStep : SrvState → SrvState → Prop where
  | spawn (a c ws m sl) : SStep ⟨a, c, ws, m, sl⟩ ⟨a, c, ws ++ [.start], m, sl⟩
  | admitYes (c ws m sl i) (h : ws.get? i = some .start) :
      SStep ⟨true, c, ws, m, sl⟩ ⟨true, c + 1, ws.set i .serving, m, sl⟩
  | admitNo (c ws m sl i) (h : ws.get? i = some .start) :
      SStep ⟨false, c, ws, m, sl⟩ ⟨false, c, ws.set i .gone, m, sl⟩
  | enterDb (a c ws m sl i) (h : ws.get? i = some .serving) :
      SStep ⟨a, c, ws, m, sl⟩ ⟨a, c, ws.set i .inDb, m, sl⟩
  | exitDb (a c ws m sl i) (h : ws.get? i = some .inDb) :
      SStep ⟨a, c, ws, m, sl⟩ ⟨a, c, ws.set i .serving, m, sl⟩
  | leaveLoop (a c ws m sl i) (h : ws.get? i = some .serving) :
      SStep ⟨a, c, ws, m, sl⟩ ⟨a, c, ws.set i .cleaning, m, sl⟩
  | finishCleanup (a c ws m sl i) (h : ws.get? i = some .cleaning) :
      SStep ⟨a, c, ws, m, sl⟩ ⟨a, c - 1, ws.set i .gone, m, sl⟩
  | mainEof (a c ws sl) :
      SStep ⟨a, c, ws, .running, sl⟩ ⟨false, c, ws, .cancelling, sl⟩
  | mainCancelAll (a c ws sl) :
      SStep ⟨a, c, ws, .cancelling, sl⟩ ⟨a, c, ws, .waiting, sl⟩
  | mainObserveZero (a ws sl) :
      SStep ⟨a, 0, ws, .waiting, sl⟩ ⟨a, 0, ws, .teardown, sl⟩
  | mainFinish (a c ws sl) :
      SStep ⟨a, c, ws, .teardown, sl⟩ ⟨a, c, ws, .done, sl⟩
  | sigDeactivate (a c ws m) :
      SStep ⟨a, c, ws, m, .idle⟩ ⟨false, c, ws, m, .deactivated⟩
  | sigCancelWorkers (a c ws m) :
      SStep ⟨a, c, ws, m, .deactivated⟩ ⟨a, c, ws, m, .cancelled⟩
  | sigReactivate (a c ws m) :
      SStep ⟨a, c, ws, m, .cancelled⟩ ⟨true, c, ws, m, .restored⟩
  | sigNext (a c ws m) :
      SStep ⟨a, c, ws, m, .restored⟩ ⟨a, c, ws, m, .idle⟩

/-- A step that is compatible with "no interrupt is handled concurrently with
the shutdown sequence": either the signal handler does not move (only the
signal constructors change `sigLoc`), or the main thread is still in its
console loop. `Relation.ReflTransGen SStep` is the full program;
`Relation.ReflTransGen SStepNoSig` is the executions in which every step of
SIGINT handling happens while the console loop is still running. -/
def SStepNoSig (s s' : SrvState) : Prop :=
  SStep s s' ∧ (s.sigLoc = s'.sigLoc ∨ s.mainLoc = .running)

/-- The state after main's startup (server_active = 1, no workers yet, no
signal being handled). -/
def srvInit : SrvState := ⟨true, 0, [], .running, .idle⟩

/-- Reachability from startup under the full interleaving. -/
def SrvReach (s : SrvState) : Prop := Relation.ReflTransGen SStep srvInit s

/-- Reachability from startup with no interrupt handled concurrently with the
shutdown sequence. -/
def SrvReachNoSig (s : SrvState) : Prop := Relation.ReflTransGen SStepNoSig srvInit s

/-- The inductive invariant of the shutdown protocol (for executions without
interrupt handling concurrent with shutdown). -/
def SrvInv (s : SrvState) : Prop :=
  s.count = activeCount s.workers ∧
  (s.mainLoc ≠ .running → s.active = false) ∧
  ((s.mainLoc = .teardown ∨ s.mainLoc = .done) → s.count = 0)

/-!
## Model of the SIGINT handler (server.c: monitor_signal, delete_all,
run_client's admission check)

The handler thread's actions on `server_active`, at the granularity of its
`thread_list_mutex` critical sections: `delete_all` sets `server_active = 0`
in one section and cancels the registered workers in a second section; after
`delete_all` returns, `monitor_signal` sets `server_active = 1` in a third
section, then loops back to `sigwait`. (The handler location type `SigLoc` is
defined above, shared with the shutdown model.)
-/

/-- The flag `server_active` plus the handler thread's location. -/
structure SigSt where
  active : Bool
  loc : SigLoc
deriving DecidableEq, Repr

/-- Steps of the SIGINT handler (monitor_signal):
`deactivate`: `delete_all` sets `server_active = 0`;
`cancelWorkers`: `delete_all`'s `pthread_cancel` loop;
`reactivate`: monitor_signal sets `server_active = 1` again;
`nextSignal`: the handler loops back to `sigwait` for the next signal. -/
inductive SigStep : SigSt → SigSt → Prop where
  | deactivate (a) : SigStep ⟨a, .idle⟩ ⟨false, .deactivated⟩
  | cancelWorkers (a) : SigStep ⟨a, .deactivated⟩ ⟨a, .cancelled⟩
  | reactivate (a) : SigStep ⟨a, .cancelled⟩ ⟨true, .restored⟩
  | nextSignal (a) : SigStep ⟨a, .restored⟩ ⟨a, .idle⟩

/-- Initial state: server active, no signal being handled. -/
def sigInit : SigSt := ⟨true, .idle⟩

/-- Reachability under SIGINT handling. -/
def SigReach (s : SigSt) : Prop := Relation.ReflTransGen SigStep sigInit s

/-- run_client's admission decision for a connection arriving in state `s`:
the worker is admitted (registered and served) iff `server_active` is
nonzero; otherwise `client_destructor` closes the connection at once. -/
def run_client_admits (s : SigSt) : Bool := s.active

/-!
## Model of the stop/go barrier (server.c: client_control_wait,
client_control_stop, client_control_release)

Every access to `client_control.stopped` is under `client_control.go_mutex`,
so each flag check, flag write, and wake-up is one atomic step.
-/

/-- Where a worker stands relative to the barrier:
`outside`: not in `client_control_wait`;
`atCheck`: holding `go_mutex`, about to evaluate `stopped == 1` (either on
entry or just after `pthread_cond_wait` returned);
`blocked`: waiting on the condition variable `go`;
`passed`: the while loop exited, `client_control_wait` returned. -/
inductive GateLoc where
  | outside | atCheck | blocked | passed
deriving DecidableEq, Repr

/-- Barrier state: the `stopped` flag and every worker's location. -/
structure GateSt where
  stopped : Bool
  workers : List GateLoc
deriving DecidableEq, Repr

/-- The `while (client_control.stopped == 1)` check of `client_control_wait`:
performed with the mutex held, both on entry and after each wake-up. A true
flag sends the worker (back) into `pthread_cond_wait`; a false flag lets it
return. -/
def wait_check (stopped : Bool) : GateLoc :=
  if stopped then .blocked else .passed

/-- The function `client_control_stop`: sets `stopped = 1` under the mutex. -/
def client_control_stop (s : GateSt) : GateSt :=
  { s with stopped := true }

/-- Effect of `pthread_cond_broadcast(&client_control.go)` on one worker: a
blocked worker wakes and must re-evaluate the while condition. -/
def wakeOne : GateLoc → GateLoc
  | .blocked => .atCheck
  | l => l

/-- The function `client_control_release`: sets `stopped = 0` and broadcasts, waking every
worker currently blocked on the condition variable. -/
def client_control_release (s : GateSt) : GateSt :=
  ⟨false, s.workers.map wakeOne⟩

/-!
## Lock-event trace of db_remove (db.c: db_remove, search)

For claim C9 the rwlock traffic of `db_remove` is made explicit. Nodes are
identified by their path from the head sentinel (`[]`; `false` = lchild,
`true` = rchild), which is stable across the call since `db_remove` only
mutates slots after all its lock acquisitions on the corresponding path.
-/

/-- A write-lock acquisition or release of the rwlock of the node at the given
path (db_remove takes every lock in write mode). -/
inductive Ev where
  | acq (p : List Bool) : Ev
  | rel (p : List Bool) : Ev
deriving DecidableEq, Repr

/-- The call `search(name, parent, &parent, l_write)` as issued by db_remove, with lock
events. `p` is the parent subtree, at path `pp`, whose lock is held on entry.
Result: `some (dnode, dnodePath)` plus the last parent's path (the node left
locked as `*parentpp`), or `none` when the key is absent (the last parent is
then still locked), together with the emitted lock events. -/
def removeSearchT (name : List Char) :
    Node → List Bool → Option (Node × List Bool) × List Bool × List Ev
  | .nil, pp => (none, pp, [])
  | .node pn _ pl pr, pp =>
    if strcmp name pn = .lt then
      match pl with
      | .nil => (none, pp, [])
      | .node cn _ _ _ =>
        if strcmp name cn = .eq then
          (some (pl, pp ++ [false]), pp, [.acq (pp ++ [false])])
        else
          let res := removeSearchT name pl (pp ++ [false])
          (res.1, res.2.1, .acq (pp ++ [false]) :: .rel pp :: res.2.2)
    else
      match pr with
      | .nil => (none, pp, [])
      | .node cn _ _ _ =>
        if strcmp name cn = .eq then
          (some (pr, pp ++ [true]), pp, [.acq (pp ++ [true])])
        else
          let res := removeSearchT name pr (pp ++ [true])
          (res.1, res.2.1, .acq (pp ++ [true]) :: .rel pp :: res.2.2)

/-- The successor-chain walk of db_remove's two-child case, with lock events:
`n` (at path `np`, already locked by the caller) is the current `next`; while
`next->lchild` is non-NULL, lock the left child, then unlock `next` and
descend. Returns the final `next`'s path and the events. -/
def chainT : Node → List Bool → List Bool × List Ev
  | .nil, np => (np, [])
  | .node _ _ l _, np =>
    match l with
    | .nil => (np, [])
    | .node _ _ _ _ =>
      let res := chainT l (np ++ [false])
      (res.1, .acq (np ++ [false]) :: .rel np :: res.2)

/-- The complete write-lock event trace of one `db_remove(name)` call on tree
`t`: the initial `pthread_rwlock_wrlock(&head.rwl)`, the search, and then the
unlocks (and, in the two-child case, the successor-chain lock traffic) of the
branch taken, in program order as in db.c lines 150-251. -/
def db_removeT (t : Node) (name : List Char) : List Ev :=
  let res := removeSearchT name t []
  match res.1 with
  | none => .acq [] :: res.2.2 ++ [.rel res.2.1]
  | some (dnode, dp) =>
    match dnode with
    | .nil => .acq [] :: res.2.2 ++ [.rel res.2.1]
    | .node _ _ dl dr =>
      match dr with
      | .nil => .acq [] :: res.2.2 ++ [.rel res.2.1, .rel dp]
      | .node _ _ _ _ =>
        match dl with
        | .nil => .acq [] :: res.2.2 ++ [.rel res.2.1, .rel dp]
        | .node _ _ _ _ =>
          let ch := chainT dr (dp ++ [true])
          .acq [] :: res.2.2 ++ .acq (dp ++ [true]) :: ch.2 ++
            [.rel ch.1, .rel dp, .rel res.2.1]

/-- Run a lock-event trace against a held-lock set: acquiring a lock already
held fails (a node's rwlock is taken at most once by the thread), releasing a
lock not held fails, and the final held set is returned. A trace `es` is
balanced when `runHeld es [] = some []`: every acquired lock is released
exactly once per acquisition, and nothing else is released. -/
def runHeld : List Ev → List (List Bool) → Option (List (List Bool))
  | [], h => some h
  | .acq p :: es, h => if p ∈ h then none else runHeld es (p :: h)
  | .rel p :: es, h => if p ∈ h then runHeld es (h.erase p) else none

/-!
## Properties of strcmp
-/

theorem strcmp_self : ∀ a : List Char, strcmp a a = .eq := by
  intro a
  induction a with
  | nil => rfl
  | cons c cs ih => simp [strcmp, ih]

theorem strcmp_eq_iff : ∀ a b : List Char, strcmp a b = .eq ↔ a = b := by
  intro a
  induction a with
  | nil => intro b; cases b <;> simp [strcmp]
  | cons c cs ih =>
    intro b
    cases b with
    | nil => simp [strcmp]
    | cons d ds =>
      by_cases hcd : c < d
      · simp only [strcmp, if_pos hcd]
        constructor
        · intro h; exact absurd h (by simp)
        · rintro ⟨rfl, rfl⟩; exact absurd hcd (lt_irrefl c)
      · by_cases hdc : d < c
        · simp only [strcmp, if_neg hcd, if_pos hdc]
          constructor
          · intro h; exact absurd h (by simp)
          · rintro ⟨rfl, rfl⟩; exact absurd hdc (lt_irrefl c)
        · have hce : c = d := le_antisymm (not_lt.mp hdc) (not_lt.mp hcd)
          subst hce
          simp only [strcmp, if_neg hcd, List.cons.injEq, true_and]
          exact ih ds

theorem strcmp_gt_iff : ∀ a b : List Char, strcmp a b = .gt ↔ strcmp b a = .lt := by
  intro a
  induction a with
  | nil => intro b; cases b <;> simp [strcmp]
  | cons c cs ih =>
    intro b
    cases b with
    | nil => simp [strcmp]
    | cons d ds =>
      by_cases hcd : c < d
      · have hdc : ¬ d < c := not_lt_of_lt hcd
        simp [strcmp, hcd, hdc]
      · by_cases hdc : d < c
        · simp [strcmp, hcd, hdc]
        · simp only [strcmp, if_neg hcd, if_neg hdc]
          exact ih ds

theorem strcmp_lt_trans : ∀ a b c : List Char,
    strcmp a b = .lt → strcmp b c = .lt → strcmp a c = .lt := by
  intro a
  induction a with
  | nil =>
    intro b c hab hbc
    cases b with
    | nil => simp [strcmp] at hab
    | cons y bs =>
      cases c with
      | nil => simp [strcmp] at hbc
      | cons z cs => simp [strcmp]
  | cons x as ih =>
    intro b c hab hbc
    cases b with
    | nil => simp [strcmp] at hab
    | cons y bs =>
      cases c with
      | nil => simp [strcmp] at hbc
      | cons z cs =>
        simp only [strcmp] at hab hbc ⊢
        by_cases hxy : x < y
        · by_cases hyz : y < z
          · simp [lt_trans hxy hyz]
          · by_cases hzy : z < y
            · simp [hyz, hzy] at hbc
            · have : y = z := le_antisymm (not_lt.mp hzy) (not_lt.mp hyz)
              subst this
              simp [hxy]
        · by_cases hyx : y < x
          · simp [hxy, hyx] at hab
          · have : x = y := le_antisymm (not_lt.mp hyx) (not_lt.mp hxy)
            subst this
            by_cases hyz : x < z
            · simp [hyz]
            · by_cases hzy : z < x
              · simp [hyz, hzy] at hbc
              · have : x = z := le_antisymm (not_lt.mp hzy) (not_lt.mp hyz)
                subst this
                simp only [if_neg hxy] at hab hbc ⊢
                exact ih _ _ hab hbc

theorem strcmp_lt_ne : ∀ a b : List Char, strcmp a b = .lt → a ≠ b := by
  intro a b h heq
  subst heq
  rw [strcmp_self] at h
  exact absurd h (by simp)

theorem strcmp_not_eq_gt : ∀ a b : List Char,
    strcmp a b ≠ .eq → strcmp a b ≠ .lt → strcmp b a = .lt := by
  intro a b hne hnlt
  cases h : strcmp a b with
  | lt => exact absurd h hnlt
  | eq => exact absurd h hne
  | gt => exact (strcmp_gt_iff a b).mp h

theorem strcmp_cons_nil_gt : ∀ (c : Char) (cs : List Char), strcmp (c :: cs) [] = .gt := by
  intro c cs; rfl

/-!
## Properties of token scanning
-/

theorem dropWhile_nonspace : ∀ l : List Char, (∀ c ∈ l, isspace c = false) →
    l.dropWhile isspace = l := by
  intro l h
  cases l with
  | nil => rfl
  | cons c cs =>
    have hc : isspace c = false := h c (by simp)
    simp [List.dropWhile, hc]

theorem dropWhile_nonspace_append : ∀ (k m : List Char), k ≠ [] →
    (∀ c ∈ k, isspace c = false) → (k ++ m).dropWhile isspace = k ++ m := by
  intro k m hk h
  cases k with
  | nil => exact absurd rfl hk
  | cons c cs =>
    have hc : isspace c = false := h c (by simp)
    simp [List.dropWhile, hc]

theorem takeWhile_nonspace : ∀ l : List Char, (∀ c ∈ l, isspace c = false) →
    l.takeWhile (fun c => !isspace c) = l := by
  intro l h
  induction l with
  | nil => rfl
  | cons c cs ih =>
    have hc : isspace c = false := h c (by simp)
    simp only [List.takeWhile_cons, hc, Bool.not_false, if_true, List.cons.injEq, true_and]
    exact ih (fun d hd => h d (by simp [hd]))

theorem takeWhile_nonspace_append : ∀ (k m : List Char), (∀ c ∈ k, isspace c = false) →
    (k ++ ' ' :: m).takeWhile (fun c => !isspace c) = k := by
  intro k m h
  induction k with
  | nil => simp [List.takeWhile_cons, isspace]
  | cons c cs ih =>
    have hc : isspace c = false := h c (by simp)
    simp only [List.cons_append, List.takeWhile_cons, hc, Bool.not_false, if_true,
      List.cons.injEq, true_and]
    exact ih (fun d hd => h d (by simp [hd]))

theorem scanToken_all : ∀ k : List Char, k ≠ [] → (∀ c ∈ k, isspace c = false) →
    scanToken k = some (k.take 255, k.drop 255) := by
  intro k hk h
  have hd : k.dropWhile isspace = k := dropWhile_nonspace _ h
  simp only [scanToken, hd, if_neg hk, takeWhile_nonspace _ h]
  rw [List.length_take]
  rcases le_or_lt k.length 255 with hle | hgt
  · rw [min_eq_right hle, List.drop_length, List.drop_eq_nil_of_le hle]
  · rw [min_eq_left (le_of_lt hgt)]

theorem scanToken_space_all : ∀ k : List Char, k ≠ [] → (∀ c ∈ k, isspace c = false) →
    scanToken (' ' :: k) = some (k.take 255, k.drop 255) := by
  intro k hk h
  have hd : (' ' :: k).dropWhile isspace = k.dropWhile isspace := by
    have hsp : isspace ' ' = true := by decide
    simp [List.dropWhile_cons, hsp]
  have hd2 : k.dropWhile isspace = k := dropWhile_nonspace _ h
  simp only [scanToken, hd, hd2, if_neg hk, takeWhile_nonspace _ h]
  rw [List.length_take]
  rcases le_or_lt k.length 255 with hle | hgt
  · rw [min_eq_right hle, List.drop_length, List.drop_eq_nil_of_le hle]
  · rw [min_eq_left (le_of_lt hgt)]

theorem scanToken_space_token : ∀ y : List Char, y ≠ [] → y.length ≤ 255 →
    (∀ c ∈ y, isspace c = false) → scanToken (' ' :: y) = some (y, []) := by
  intro y hy hlen h
  rw [scanToken_space_all y hy h, List.take_of_length_le hlen, List.drop_eq_nil_of_le hlen]

theorem scanToken_space_tok_rest : ∀ (k m : List Char), k ≠ [] → k.length ≤ 255 →
    (∀ c ∈ k, isspace c = false) →
    scanToken (' ' :: (k ++ ' ' :: m)) = some (k, ' ' :: m) := by
  intro k m hk hlen h
  have hd : (' ' :: (k ++ ' ' :: m)).dropWhile isspace = k ++ ' ' :: m := by
    have hsp : isspace ' ' = true := by decide
    simp only [List.dropWhile_cons, hsp, if_true]
    exact dropWhile_nonspace_append k (' ' :: m) hk h
  have ht : (k ++ ' ' :: m).takeWhile (fun c => !isspace c) = k :=
    takeWhile_nonspace_append k m h
  have hne : k ++ ' ' :: m ≠ [] := by simp
  simp only [scanToken, hd, if_neg hne, ht, List.take_of_length_le hlen]
  rw [List.drop_left]

theorem validToken_spec : ∀ y : List Char, validToken y = true →
    y ≠ [] ∧ y.length ≤ 255 ∧ ∀ c ∈ y, isspace c = false := by
  intro y h
  simp only [validToken, Bool.and_eq_true, Bool.not_eq_true', List.all_eq_true,
    decide_eq_true_eq] at h
  obtain ⟨⟨h1, h2⟩, h3⟩ := h
  refine ⟨?_, h2, fun c hc => ?_⟩
  · intro hnil; subst hnil; simp at h1
  · have := h3 c hc
    simpa using this

/-!
## Interpreter dispatch lemmas
-/

theorem scanToken_nil : scanToken [] = none := by decide

theorem scan2_nil : scan2 [] = none := by decide

theorem interpret_q_scan : ∀ (ok : Bool) (t : Node) (rest n v' : List Char),
    scanToken rest = some (n, v') →
    interpret_command ok t ('q' :: rest) =
      some (t, if (db_query t n).length = 0 then "not found".data else db_query t n) := by
  intro ok t rest n v' hs
  have hrest : rest ≠ [] := by
    intro h; subst h; rw [scanToken_nil] at hs; exact absurd hs (by simp)
  have hlen : ¬ (('q' :: rest).length ≤ 1) := by
    cases rest with
    | nil => exact absurd rfl hrest
    | cons c cs => simp
  simp only [interpret_command]
  rw [if_neg hlen]
  simp [hs]

theorem interpret_a_scan : ∀ (ok : Bool) (t : Node) (rest n v : List Char),
    scan2 rest = some (n, v) →
    interpret_command ok t ('a' :: rest) =
      some ((db_add ok t n v).1,
        if (db_add ok t n v).2 then "added".data else "already in database".data) := by
  intro ok t rest n v hs
  have hrest : rest ≠ [] := by
    intro h; subst h; rw [scan2_nil] at hs; exact absurd hs (by simp)
  have hlen : ¬ (('a' :: rest).length ≤ 1) := by
    cases rest with
    | nil => exact absurd rfl hrest
    | cons c cs => simp
  simp only [interpret_command]
  rw [if_neg hlen]
  simp [hs]

theorem interpret_d_scan : ∀ (ok : Bool) (t : Node) (rest n v' : List Char),
    scanToken rest = some (n, v') →
    interpret_command ok t ('d' :: rest) =
      some ((db_remove t n).1,
        if (db_remove t n).2 then "removed".data else "not in database".data) := by
  intro ok t rest n v' hs
  have hrest : rest ≠ [] := by
    intro h; subst h; rw [scanToken_nil] at hs; exact absurd hs (by simp)
  have hlen : ¬ (('d' :: rest).length ≤ 1) := by
    cases rest with
    | nil => exact absurd rfl hrest
    | cons c cs => simp
  simp only [interpret_command]
  rw [if_neg hlen]
  simp [hs]

/-!
## Claim C1: interpreter round trip
-/

/-- Claim C1: starting from the empty tree, `a x 1` replies `added` and stores
x -> 1; `q x` then replies `1`; a second `a x 1` replies
`already in database`; `d x` replies `removed` and restores the empty tree; a
subsequent `q x` replies `not found`; and `d y` replies `not in database` and
leaves the tree unchanged for every well-formed key token `y` that is not in
the tree. -/
theorem C1_round_trip :
    interpret_command true head0 "a x 1".data = some (tX, "added".data) ∧
    interpret_command true tX "q x".data = some (tX, "1".data) ∧
    interpret_command true tX "a x 1".data = some (tX, "already in database".data) ∧
    interpret_command true tX "d x".data = some (head0, "removed".data) ∧
    interpret_command true head0 "q x".data = some (head0, "not found".data) ∧
    ∀ (t : Node) (y : List Char), validToken y = true → removeSearch y t = none →
      interpret_command true t ('d' :: ' ' :: y) = some (t, "not in database".data) := by
  refine ⟨by decide, by decide, by decide, by decide, by decide, ?_⟩
  intro t y hv hrem
  obtain ⟨hy, hlen, hsp⟩ := validToken_spec y hv
  rw [interpret_d_scan true t (' ' :: y) y [] (scanToken_space_token y hy hlen hsp)]
  simp [db_remove, hrem]

/-- Witness for C1: deleting the absent key `y` from the tree holding only `x`
replies `not in database`. -/
theorem C1_round_trip_witness :
    interpret_command true tX ('d' :: ' ' :: ['y']) = some (tX, "not in database".data) :=
  C1_round_trip.2.2.2.2.2 tX ['y'] (by decide) (by decide)

/-!
## Claim C3: two-child delete
-/

/-- Claim C3: after inserting keys 5,2,8,1,3,7,9,6 into the empty tree,
deleting key 5 (which has two children) copies the in-order successor 6's key
and value into the deleted node's position, splices the successor node out by
linking its right child (NULL) into the left-child slot of 7 that held it, and
returns 1 (`removed`). The in-order traversal of the resulting tree is the
permanent sentinel's empty key followed by 1,2,3,6,7,8,9. -/
theorem C3_two_child_delete :
    db_remove (applyOps head0 opsC3) ['5'] =
      (.node [] [] .nil
        (.node ['6'] ['6']
          (.node ['2'] ['2'] (.node ['1'] ['1'] .nil .nil) (.node ['3'] ['3'] .nil .nil))
          (.node ['8'] ['8'] (.node ['7'] ['7'] .nil .nil) (.node ['9'] ['9'] .nil .nil))),
       true) ∧
    inorderKeys (db_remove (applyOps head0 opsC3) ['5']).1 =
      [[], ['1'], ['2'], ['3'], ['6'], ['7'], ['8'], ['9']] := by
  constructor <;> decide

/-!
## Claim C4: allocation failure during add
-/

/-- Claim C4 evaluation: when `node_constructor` fails during an add of an
absent key — whether from `malloc` failure (`allocOk = false`) or a key over
the length limit — db.c's `db_add` stores the NULL result in the parent's
child slot without checking it and returns 1, so the interpreter replies
`added` even though nothing was stored. The tree's key/value pairs are
unchanged (the slot was already NULL), but the failure is surfaced as
success, not as an add failure. -/
theorem C4_alloc_failure_behavior :
    node_constructor false ['x'] ['1'] = none ∧
    db_add false head0 ['x'] ['1'] = (head0, true) ∧
    interpret_command false head0 "a x 1".data = some (head0, "added".data) ∧
    node_constructor true (List.replicate 300 'x') ['1'] = none ∧
    db_add true head0 (List.replicate 300 'x') ['1'] = (head0, true) := by
  refine ⟨by decide, by decide, by decide, by decide, by decide⟩

/-!
## Claim C5: over-long tokens
-/

/-- Claim C5 counterexample: the command `a` followed by one 300-byte key
token is *not* rejected as `ill-formed command`: `sscanf`'s `%255s` reads the
first 255 bytes as the key and the remaining 45 bytes of the same token as
the value, `db_add` runs, the interpreter replies `added`, and the tree is
mutated (it gains a node with the truncated 255-byte key). -/
theorem C5_counterexample :
    interpret_command true head0 ('a' :: ' ' :: List.replicate 300 'k') =
      some (.node [] [] .nil
        (.node (List.replicate 255 'k') (List.replicate 45 'k') .nil .nil), "added".data) ∧
    Node.node [] [] .nil (.node (List.replicate 255 'k') (List.replicate 45 'k') .nil .nil)
      ≠ head0 := by
  constructor <;> decide

/-- Claim C5 (amended): the interpreter never rejects a command for an
over-long token; `sscanf`'s `%255s` truncates instead. For `a` with a key
token longer than 255 bytes, the first 255 bytes become the key and the next
up-to-255 bytes of the same token become the value, and `db_add` is invoked
with them; for `a` with a well-formed key and a value token longer than 255
bytes, `db_add` is invoked with the value's first 255 bytes. The tree can be
mutated in both cases. -/
theorem C5_truncation :
    (∀ (t : Node) (k : List Char), 255 < k.length → (∀ c ∈ k, isspace c = false) →
      interpret_command true t ('a' :: ' ' :: k) =
        some ((db_add true t (k.take 255) ((k.drop 255).take 255)).1,
          if (db_add true t (k.take 255) ((k.drop 255).take 255)).2 then "added".data
          else "already in database".data)) ∧
    (∀ (t : Node) (k v : List Char), validToken k = true → 255 < v.length →
      (∀ c ∈ v, isspace c = false) →
      interpret_command true t ('a' :: ' ' :: (k ++ ' ' :: v)) =
        some ((db_add true t k (v.take 255)).1,
          if (db_add true t k (v.take 255)).2 then "added".data
          else "already in database".data)) := by
  constructor
  · intro t k hklen hksp
    have hk : k ≠ [] := by intro h; subst h; simp at hklen
    have hdropne : k.drop 255 ≠ [] := by
      rw [Ne, List.drop_eq_nil_iff]; omega
    have hdropsp : ∀ c ∈ k.drop 255, isspace c = false :=
      fun c hc => hksp c (List.drop_subset _ _ hc)
    have hs : scan2 (' ' :: k) = some (k.take 255, (k.drop 255).take 255) := by
      simp only [scan2, scanToken_space_all k hk hksp,
        scanToken_all (k.drop 255) hdropne hdropsp]
    exact interpret_a_scan true t (' ' :: k) _ _ hs
  · intro t k v hkv hvlen hvsp
    obtain ⟨hk, hklen, hksp⟩ := validToken_spec k hkv
    have hvne : v ≠ [] := by intro h; subst h; simp at hvlen
    have hs : scan2 (' ' :: (k ++ ' ' :: v)) = some (k, v.take 255) := by
      simp only [scan2, scanToken_space_tok_rest k v hk hklen hksp]
      have h2 := scanToken_space_all v hvne hvsp
      simp only [h2]
    exact interpret_a_scan true t _ _ _ hs

/-- Witness for C5 (amended): a 300-byte key token and a 300-byte value token
are truncated to 255 bytes and passed to `db_add`. -/
theorem C5_truncation_witness :
    (interpret_command true head0 ('a' :: ' ' :: List.replicate 300 'k') =
      some ((db_add true head0 ((List.replicate 300 'k').take 255)
            (((List.replicate 300 'k').drop 255).take 255)).1,
        if (db_add true head0 ((List.replicate 300 'k').take 255)
            (((List.replicate 300 'k').drop 255).take 255)).2 then "added".data
        else "already in database".data)) ∧
    (interpret_command true head0 ('a' :: ' ' :: (['x'] ++ ' ' :: List.replicate 300 'v')) =
      some ((db_add true head0 ['x'] ((List.replicate 300 'v').take 255)).1,
        if (db_add true head0 ['x'] ((List.replicate 300 'v').take 255)).2 then "added".data
        else "already in database".data)) :=
  ⟨C5_truncation.1 head0 (List.replicate 300 'k') (by decide) (by decide),
   C5_truncation.2 head0 ['x'] (List.replicate 300 'v') (by decide) (by decide) (by decide)⟩

/-!
## Claim C10: empty stored value
-/

/-- Claim C10: when the key is present but its stored value is the empty
string, `db_query` writes an empty reply and `interpret_command` rewrites the
empty reply to `not found` — exactly the reply produced when the key is
absent, so the two cases are indistinguishable to the client. -/
theorem C10_empty_value_query :
    ∀ (t : Node) (y : List Char), validToken y = true →
      ((search y t).map Node.value = some [] →
        interpret_command true t ('q' :: ' ' :: y) = some (t, "not found".data)) ∧
      (search y t = none →
        interpret_command true t ('q' :: ' ' :: y) = some (t, "not found".data)) := by
  intro t y hv
  obtain ⟨hy, hlen, hsp⟩ := validToken_spec y hv
  have hsc := scanToken_space_token y hy hlen hsp
  constructor
  · intro h
    obtain ⟨tgt, htgt, hval⟩ := Option.map_eq_some'.mp h
    rw [interpret_q_scan true t (' ' :: y) y [] hsc]
    simp [db_query, htgt, hval]
  · intro h
    rw [interpret_q_scan true t (' ' :: y) y [] hsc]
    have h9 : ("not found".data).length = 9 := by decide
    simp [db_query, h, h9]

/-- Witness for C10: querying a key stored with the empty value replies
`not found`. -/
theorem C10_empty_value_query_witness :
    interpret_command true (.node [] [] .nil (.node ['x'] [] .nil .nil)) ('q' :: ' ' :: ['x']) =
      some (.node [] [] .nil (.node ['x'] [] .nil .nil), "not found".data) :=
  (C10_empty_value_query (.node [] [] .nil (.node ['x'] [] .nil .nil)) ['x']
    (by decide)).1 (by decide)

/-!
## Claim C2: the BST invariant under add/remove sequences

One-step branch equations for the recursive tree operations (the `rw`-friendly
form of their defining case analysis).
-/

theorem addSearch_lt_nil (name : List Char) (nw : Node) (pn pv : List Char) (pr : Node)
    (h : strcmp name pn = .lt) :
    addSearch name nw (.node pn pv .nil pr) = some (.node pn pv nw pr) := by
  simp only [addSearch, if_pos h]

theorem addSearch_lt_node (name : List Char) (nw : Node) (pn pv cn cv : List Char)
    (cl cr pr : Node) (h : strcmp name pn = .lt) :
    addSearch name nw (.node pn pv (.node cn cv cl cr) pr) =
      if strcmp name cn = .eq then none
      else (addSearch name nw (.node cn cv cl cr)).map (fun l' => .node pn pv l' pr) := by
  simp only [addSearch, if_pos h]

theorem addSearch_ge_nil (name : List Char) (nw : Node) (pn pv : List Char) (pl : Node)
    (h : ¬ strcmp name pn = .lt) :
    addSearch name nw (.node pn pv pl .nil) = some (.node pn pv pl nw) := by
  simp only [addSearch, if_neg h]

theorem addSearch_ge_node (name : List Char) (nw : Node) (pn pv cn cv : List Char)
    (pl cl cr : Node) (h : ¬ strcmp name pn = .lt) :
    addSearch name nw (.node pn pv pl (.node cn cv cl cr)) =
      if strcmp name cn = .eq then none
      else (addSearch name nw (.node cn cv cl cr)).map (fun r' => .node pn pv pl r') := by
  simp only [addSearch, if_neg h]

theorem removeSearch_lt_nil (name pn pv : List Char) (pr : Node)
    (h : strcmp name pn = .lt) :
    removeSearch name (.node pn pv .nil pr) = none := by
  simp only [removeSearch, if_pos h]

theorem removeSearch_lt_node (name pn pv cn cv : List Char) (cl cr pr : Node)
    (h : strcmp name pn = .lt) :
    removeSearch name (.node pn pv (.node cn cv cl cr) pr) =
      if strcmp name cn = .eq then some (.node pn pv (removeNode (.node cn cv cl cr)) pr)
      else (removeSearch name (.node cn cv cl cr)).map (fun l' => .node pn pv l' pr) := by
  simp only [removeSearch, if_pos h]

theorem removeSearch_ge_nil (name pn pv : List Char) (pl : Node)
    (h : ¬ strcmp name pn = .lt) :
    removeSearch name (.node pn pv pl .nil) = none := by
  simp only [removeSearch, if_neg h]

theorem removeSearch_ge_node (name pn pv cn cv : List Char) (pl cl cr : Node)
    (h : ¬ strcmp name pn = .lt) :
    removeSearch name (.node pn pv pl (.node cn cv cl cr)) =
      if strcmp name cn = .eq then some (.node pn pv pl (removeNode (.node cn cv cl cr)))
      else (removeSearch name (.node cn cv cl cr)).map (fun r' => .node pn pv pl r') := by
  simp only [removeSearch, if_neg h]

theorem spliceMin_eq_lnil (n v : List Char) (r : Node) :
    spliceMin (.node n v .nil r) = (n, v, r) := rfl

theorem spliceMin_eq_lnode (n v a b : List Char) (c d r : Node) :
    spliceMin (.node n v (.node a b c d) r) =
      ((spliceMin (.node a b c d)).1, (spliceMin (.node a b c d)).2.1,
        .node n v (spliceMin (.node a b c d)).2.2 r) := rfl

theorem removeNode_eq_rnil (dn dv : List Char) (dl : Node) :
    removeNode (.node dn dv dl .nil) = dl := by
  cases dl <;> rfl

theorem removeNode_eq_lnil (dn dv a b : List Char) (c d : Node) :
    removeNode (.node dn dv .nil (.node a b c d)) = .node a b c d := rfl

theorem removeNode_eq_two (dn dv e f a b : List Char) (g h c d : Node) :
    removeNode (.node dn dv (.node e f g h) (.node a b c d)) =
      .node ((spliceMin (.node a b c d)).1.take 255)
        ((spliceMin (.node a b c d)).2.1.take 255)
        (.node e f g h) (spliceMin (.node a b c d)).2.2 := rfl

theorem forallKeys_mono {q r : List Char → Prop} (h : ∀ k, q k → r k) :
    ∀ t, ForallKeys q t → ForallKeys r t := by
  intro t
  induction t with
  | nil => intro _; trivial
  | node n v l r ihl ihr =>
    intro hf
    obtain ⟨h1, h2, h3⟩ := hf
    exact ⟨h n h1, ihl h2, ihr h3⟩

theorem forallKeys_iff_mem : ∀ (q : List Char → Prop) (t : Node),
    ForallKeys q t ↔ ∀ k ∈ inorderKeys t, q k := by
  intro q t
  induction t with
  | nil => simp [ForallKeys, inorderKeys]
  | node n v l r ihl ihr =>
    simp only [ForallKeys, inorderKeys, List.mem_append, List.mem_cons]
    constructor
    · rintro ⟨h1, h2, h3⟩ k hk
      rcases hk with hk | hk | hk
      · exact ihl.mp h2 k hk
      · subst hk; exact h1
      · exact ihr.mp h3 k hk
    · intro h
      exact ⟨h n (Or.inr (Or.inl rfl)), ihl.mpr fun k hk => h k (Or.inl hk),
        ihr.mpr fun k hk => h k (Or.inr (Or.inr hk))⟩

theorem addSearch_nil_noop (name : List Char) :
    ∀ t, addSearch name .nil t = none ∨ addSearch name .nil t = some t := by
  intro t
  induction t with
  | nil => exact Or.inl rfl
  | node pn pv pl pr ihl ihr =>
    by_cases hlt : strcmp name pn = .lt
    · cases pl with
      | nil => rw [addSearch_lt_nil name .nil pn pv pr hlt]; exact Or.inr rfl
      | node cn cv cl cr =>
        rw [addSearch_lt_node name .nil pn pv cn cv cl cr pr hlt]
        by_cases heq : strcmp name cn = .eq
        · rw [if_pos heq]; exact Or.inl rfl
        · rw [if_neg heq]
          rcases ihl with h | h <;> rw [h]
          · exact Or.inl rfl
          · exact Or.inr rfl
    · cases pr with
      | nil => rw [addSearch_ge_nil name .nil pn pv pl hlt]; exact Or.inr rfl
      | node cn cv cl cr =>
        rw [addSearch_ge_node name .nil pn pv cn cv pl cl cr hlt]
        by_cases heq : strcmp name cn = .eq
        · rw [if_pos heq]; exact Or.inl rfl
        · rw [if_neg heq]
          rcases ihr with h | h <;> rw [h]
          · exact Or.inl rfl
          · exact Or.inr rfl

theorem addSearch_insert (name v : List Char) :
    ∀ t, BST t → (∀ pn pv pl pr, t = Node.node pn pv pl pr → strcmp name pn ≠ .eq) →
    addSearch name (.node name v .nil .nil) t = none ∨
    ∃ t', addSearch name (.node name v .nil .nil) t = some t' ∧ BST t' ∧
      ∀ q : List Char → Prop, ForallKeys q t → q name → ForallKeys q t' := by
  intro t
  induction t with
  | nil => intro _ _; exact Or.inl rfl
  | node pn pv pl pr ihl ihr =>
    intro hbst hroot
    have hne : strcmp name pn ≠ .eq := hroot pn pv pl pr rfl
    obtain ⟨hbl, hbr, hBl, hBr⟩ := hbst
    by_cases hlt : strcmp name pn = .lt
    · cases pl with
      | nil =>
        rw [addSearch_lt_nil name _ pn pv pr hlt]
        right
        refine ⟨_, rfl, ?_, ?_⟩
        · exact ⟨⟨hlt, trivial, trivial⟩, hbr, ⟨trivial, trivial, trivial, trivial⟩, hBr⟩
        · intro q hq hqn
          obtain ⟨hq1, hq2, hq3⟩ := hq
          exact ⟨hq1, ⟨hqn, trivial, trivial⟩, hq3⟩
      | node cn cv cl cr =>
        rw [addSearch_lt_node name _ pn pv cn cv cl cr pr hlt]
        by_cases heq : strcmp name cn = .eq
        · rw [if_pos heq]; exact Or.inl rfl
        · rw [if_neg heq]
          have hroot' : ∀ a b c d, Node.node cn cv cl cr = Node.node a b c d →
              strcmp name a ≠ .eq := by
            intro a b c d hEq
            injection hEq with h1 _ _ _
            subst h1
            exact heq
          rcases ihl hBl hroot' with h | ⟨l', hl', hbst', htrans⟩
          · rw [h]; exact Or.inl rfl
          · rw [hl']
            right
            refine ⟨_, rfl, ?_, ?_⟩
            · exact ⟨htrans _ hbl hlt, hbr, hbst', hBr⟩
            · intro q hq hqn
              obtain ⟨hq1, hq2, hq3⟩ := hq
              exact ⟨hq1, htrans q hq2 hqn, hq3⟩
    · have hgt : strcmp pn name = .lt := strcmp_not_eq_gt name pn hne hlt
      cases pr with
      | nil =>
        rw [addSearch_ge_nil name _ pn pv pl hlt]
        right
        refine ⟨_, rfl, ?_, ?_⟩
        · exact ⟨hbl, ⟨hgt, trivial, trivial⟩, hBl, ⟨trivial, trivial, trivial, trivial⟩⟩
        · intro q hq hqn
          obtain ⟨hq1, hq2, hq3⟩ := hq
          exact ⟨hq1, hq2, ⟨hqn, trivial, trivial⟩⟩
      | node cn cv cl cr =>
        rw [addSearch_ge_node name _ pn pv cn cv pl cl cr hlt]
        by_cases heq : strcmp name cn = .eq
        · rw [if_pos heq]; exact Or.inl rfl
        · rw [if_neg heq]
          have hroot' : ∀ a b c d, Node.node cn cv cl cr = Node.node a b c d →
              strcmp name a ≠ .eq := by
            intro a b c d hEq
            injection hEq with h1 _ _ _
            subst h1
            exact heq
          rcases ihr hBr hroot' with h | ⟨r', hr', hbst', htrans⟩
          · rw [h]; exact Or.inl rfl
          · rw [hr']
            right
            refine ⟨_, rfl, ?_, ?_⟩
            · exact ⟨hbl, htrans _ hbr hgt, hBl, hbst'⟩
            · intro q hq hqn
              obtain ⟨hq1, hq2, hq3⟩ := hq
              exact ⟨hq1, hq2, htrans q hq3 hqn⟩

theorem spliceMin_spec :
    ∀ t, BST t → t ≠ .nil →
      BST (spliceMin t).2.2 ∧
      ForallKeys (fun k => strcmp (spliceMin t).1 k = .lt) (spliceMin t).2.2 ∧
      ∀ q : List Char → Prop, ForallKeys q t →
        q (spliceMin t).1 ∧ ForallKeys q (spliceMin t).2.2 := by
  intro t
  induction t with
  | nil => intro _ h; exact absurd rfl h
  | node n v l r ihl ihr =>
    intro hbst _
    obtain ⟨hbl, hbr, hBl, hBr⟩ := hbst
    cases l with
    | nil =>
      rw [spliceMin_eq_lnil n v r]
      exact ⟨hBr, hbr, fun q hq => ⟨hq.1, hq.2.2⟩⟩
    | node a b c d =>
      obtain ⟨ih1, ih2, ih3⟩ := ihl hBl (by simp)
      rw [spliceMin_eq_lnode n v a b c d r]
      refine ⟨?_, ?_, ?_⟩
      · exact ⟨(ih3 _ hbl).2, hbr, ih1, hBr⟩
      · have hmn : strcmp (spliceMin (Node.node a b c d)).1 n = .lt := (ih3 _ hbl).1
        refine ⟨hmn, ih2, ?_⟩
        exact forallKeys_mono (fun k hk => strcmp_lt_trans _ _ _ hmn hk) r hbr
      · intro q hq
        obtain ⟨hq1, hq2, hq3⟩ := hq
        exact ⟨(ih3 q hq2).1, hq1, (ih3 q hq2).2, hq3⟩

theorem removeNode_spec :
    ∀ dn dv dl dr, BST (.node dn dv dl dr) →
      ForallKeys (fun k => k.length ≤ 255) (.node dn dv dl dr) →
      BST (removeNode (.node dn dv dl dr)) ∧
      ∀ q : List Char → Prop, ForallKeys q (.node dn dv dl dr) →
        ForallKeys q (removeNode (.node dn dv dl dr)) := by
  intro dn dv dl dr hbst hshort
  obtain ⟨hbl, hbr, hBl, hBr⟩ := hbst
  cases dr with
  | nil =>
    rw [removeNode_eq_rnil dn dv dl]
    exact ⟨hBl, fun q hq => hq.2.1⟩
  | node a b c d =>
    cases dl with
    | nil =>
      rw [removeNode_eq_lnil dn dv a b c d]
      exact ⟨hBr, fun q hq => hq.2.2⟩
    | node e f g h =>
      obtain ⟨hs1, hs2, hs3⟩ := spliceMin_spec (.node a b c d) hBr (by simp)
      have hmn : strcmp dn (spliceMin (Node.node a b c d)).1 = .lt := (hs3 _ hbr).1
      have hshort_mn : (spliceMin (Node.node a b c d)).1.length ≤ 255 := (hs3 _ hshort.2.2).1
      have htake : (spliceMin (Node.node a b c d)).1.take 255 =
          (spliceMin (Node.node a b c d)).1 := List.take_of_length_le hshort_mn
      rw [removeNode_eq_two dn dv e f a b g h c d, htake]
      constructor
      · refine ⟨?_, hs2, hBl, hs1⟩
        exact forallKeys_mono (fun k hk => strcmp_lt_trans _ _ _ hk hmn) _ hbl
      · intro q hq
        exact ⟨(hs3 q hq.2.2).1, hq.2.1, (hs3 q hq.2.2).2⟩

theorem removeSearch_preserve (name : List Char) :
    ∀ t, BST t → ForallKeys (fun k => k.length ≤ 255) t →
      ∀ t', removeSearch name t = some t' →
        BST t' ∧ ∀ q : List Char → Prop, ForallKeys q t → ForallKeys q t' := by
  intro t
  induction t with
  | nil => intro _ _ t' h; exact absurd h (by simp [removeSearch])
  | node pn pv pl pr ihl ihr =>
    intro hbst hshort t' heq
    obtain ⟨hbl, hbr, hBl, hBr⟩ := hbst
    obtain ⟨hsn, hsl, hsr⟩ := hshort
    by_cases hlt : strcmp name pn = .lt
    · cases pl with
      | nil =>
        rw [removeSearch_lt_nil name pn pv pr hlt] at heq
        exact absurd heq (by simp)
      | node cn cv cl cr =>
        rw [removeSearch_lt_node name pn pv cn cv cl cr pr hlt] at heq
        by_cases hE : strcmp name cn = .eq
        · rw [if_pos hE] at heq
          obtain rfl := Option.some.inj heq
          have hrn := removeNode_spec cn cv cl cr hBl hsl
          constructor
          · exact ⟨hrn.2 _ hbl, hbr, hrn.1, hBr⟩
          · intro q hq
            exact ⟨hq.1, hrn.2 q hq.2.1, hq.2.2⟩
        · rw [if_neg hE] at heq
          obtain ⟨l', hl', rfl⟩ := Option.map_eq_some'.mp heq
          have ih := ihl hBl hsl l' hl'
          constructor
          · exact ⟨ih.2 _ hbl, hbr, ih.1, hBr⟩
          · intro q hq
            exact ⟨hq.1, ih.2 q hq.2.1, hq.2.2⟩
    · cases pr with
      | nil =>
        rw [removeSearch_ge_nil name pn pv pl hlt] at heq
        exact absurd heq (by simp)
      | node cn cv cl cr =>
        rw [removeSearch_ge_node name pn pv cn cv pl cl cr hlt] at heq
        by_cases hE : strcmp name cn = .eq
        · rw [if_pos hE] at heq
          obtain rfl := Option.some.inj heq
          have hrn := removeNode_spec cn cv cl cr hBr hsr
          constructor
          · exact ⟨hbl, hrn.2 _ hbr, hBl, hrn.1⟩
          · intro q hq
            exact ⟨hq.1, hq.2.1, hrn.2 q hq.2.2⟩
        · rw [if_neg hE] at heq
          obtain ⟨r', hr', rfl⟩ := Option.map_eq_some'.mp heq
          have ih := ihr hBr hsr r' hr'
          constructor
          · exact ⟨hbl, ih.2 _ hbr, hBl, ih.1⟩
          · intro q hq
            exact ⟨hq.1, hq.2.1, ih.2 q hq.2.2⟩

theorem addSearch_shape (name : List Char) (nw : Node) :
    ∀ pn pv pl pr t', addSearch name nw (.node pn pv pl pr) = some t' →
      ∃ pl' pr', t' = Node.node pn pv pl' pr' := by
  intro pn pv pl pr t' h
  by_cases hlt : strcmp name pn = .lt
  · cases pl with
    | nil =>
      rw [addSearch_lt_nil name nw pn pv pr hlt] at h
      exact ⟨nw, pr, (Option.some.inj h).symm⟩
    | node cn cv cl cr =>
      rw [addSearch_lt_node name nw pn pv cn cv cl cr pr hlt] at h
      by_cases heq : strcmp name cn = .eq
      · rw [if_pos heq] at h; exact absurd h (by simp)
      · rw [if_neg heq] at h
        obtain ⟨l', _, hEq⟩ := Option.map_eq_some'.mp h
        exact ⟨l', pr, hEq.symm⟩
  · cases pr with
    | nil =>
      rw [addSearch_ge_nil name nw pn pv pl hlt] at h
      exact ⟨pl, nw, (Option.some.inj h).symm⟩
    | node cn cv cl cr =>
      rw [addSearch_ge_node name nw pn pv cn cv pl cl cr hlt] at h
      by_cases heq : strcmp name cn = .eq
      · rw [if_pos heq] at h; exact absurd h (by simp)
      · rw [if_neg heq] at h
        obtain ⟨r', _, hEq⟩ := Option.map_eq_some'.mp h
        exact ⟨pl, r', hEq.symm⟩

theorem removeSearch_shape (name : List Char) :
    ∀ pn pv pl pr t', removeSearch name (.node pn pv pl pr) = some t' →
      ∃ pl' pr', t' = Node.node pn pv pl' pr' := by
  intro pn pv pl pr t' h
  by_cases hlt : strcmp name pn = .lt
  · cases pl with
    | nil =>
      rw [removeSearch_lt_nil name pn pv pr hlt] at h
      exact absurd h (by simp)
    | node cn cv cl cr =>
      rw [removeSearch_lt_node name pn pv cn cv cl cr pr hlt] at h
      by_cases heq : strcmp name cn = .eq
      · rw [if_pos heq] at h
        exact ⟨_, pr, (Option.some.inj h).symm⟩
      · rw [if_neg heq] at h
        obtain ⟨l', _, hEq⟩ := Option.map_eq_some'.mp h
        exact ⟨l', pr, hEq.symm⟩
  · cases pr with
    | nil =>
      rw [removeSearch_ge_nil name pn pv pl hlt] at h
      exact absurd h (by simp)
    | node cn cv cl cr =>
      rw [removeSearch_ge_node name pn pv cn cv pl cl cr hlt] at h
      by_cases heq : strcmp name cn = .eq
      · rw [if_pos heq] at h
        exact ⟨pl, _, (Option.some.inj h).symm⟩
      · rw [if_neg heq] at h
        obtain ⟨r', _, hEq⟩ := Option.map_eq_some'.mp h
        exact ⟨pl, r', hEq.symm⟩

theorem db_add_dbInv (ok : Bool) (n v : List Char) (hn : n ≠ []) (hlen : n.length ≤ 255) :
    ∀ t, dbInv t → dbInv (db_add ok t n v).1 := by
  intro t hinv
  obtain ⟨hbst, hshort, l0, r0, ht⟩ := hinv
  have hroot : ∀ pn pv pl pr, t = Node.node pn pv pl pr → strcmp n pn ≠ .eq := by
    intro pn pv pl pr hEq
    rw [ht] at hEq
    injection hEq with h1 _ _ _
    subst h1
    cases n with
    | nil => exact absurd rfl hn
    | cons c cs => simp [strcmp_cons_nil_gt]
  rcases hcon : node_constructor ok n v with _ | nd
  · rcases addSearch_nil_noop n t with h | h
    · simp only [db_add, hcon, h]
      exact ⟨hbst, hshort, l0, r0, ht⟩
    · simp only [db_add, hcon, h]
      exact ⟨hbst, hshort, l0, r0, ht⟩
  · have hnd : nd = Node.node n (v.take 255) .nil .nil := by
      simp only [node_constructor] at hcon
      split_ifs at hcon
      all_goals first
        | rw [← Option.some.inj hcon, List.take_of_length_le hlen]
        | exact absurd hcon (by simp)
    subst hnd
    rcases addSearch_insert n (v.take 255) t hbst hroot with h | ⟨t', ht', hbst', htrans⟩
    · simp only [db_add, hcon, h]
      exact ⟨hbst, hshort, l0, r0, ht⟩
    · simp only [db_add, hcon, ht']
      refine ⟨hbst', htrans _ hshort hlen, ?_⟩
      subst ht
      obtain ⟨l', r', hshape⟩ := addSearch_shape n _ [] [] l0 r0 t' ht'
      exact ⟨l', r', hshape⟩

theorem db_remove_dbInv : ∀ (t : Node) (name : List Char),
    dbInv t → dbInv (db_remove t name).1 := by
  intro t name hinv
  obtain ⟨hbst, hshort, l0, r0, ht⟩ := hinv
  rcases hrs : removeSearch name t with _ | t'
  · simp only [db_remove, hrs]
    exact ⟨hbst, hshort, l0, r0, ht⟩
  · simp only [db_remove, hrs]
    obtain ⟨hbst', htrans⟩ := removeSearch_preserve name t hbst hshort t' hrs
    refine ⟨hbst', htrans _ hshort, ?_⟩
    subst ht
    obtain ⟨l', r', hshape⟩ := removeSearch_shape name [] [] l0 r0 t' hrs
    exact ⟨l', r', hshape⟩

theorem dbInv_head0 : dbInv head0 := by
  refine ⟨⟨trivial, trivial, trivial, trivial⟩, ⟨by simp, trivial, trivial⟩, .nil, .nil, rfl⟩

theorem dbInv_applyOps : ∀ (ops : List Op) (t : Node), ops.all Op.validb = true →
    dbInv t → dbInv (applyOps t ops) := by
  intro ops
  induction ops with
  | nil => intro t _ h; exact h
  | cons op rest ih =>
    intro t hall hinv
    simp only [List.all_cons, Bool.and_eq_true] at hall
    have hstep : dbInv (applyOp t op) := by
      cases op with
      | add ok n v =>
        have h1 := hall.1
        simp only [Op.validb, Bool.and_eq_true, Bool.not_eq_true', decide_eq_true_eq] at h1
        have hn : n ≠ [] := by
          intro hh
          subst hh
          simp [List.isEmpty] at h1
        exact db_add_dbInv ok n v hn h1.2 t hinv
      | remove n => exact db_remove_dbInv t n hinv
    exact ih (applyOp t op) hall.2 hstep

theorem bst_pairwise : ∀ t, BST t →
    List.Pairwise (fun a b => strcmp a b = .lt) (inorderKeys t) := by
  intro t
  induction t with
  | nil => intro _; simp [inorderKeys]
  | node n v l r ihl ihr =>
    intro hbst
    obtain ⟨hbl, hbr, hBl, hBr⟩ := hbst
    simp only [inorderKeys]
    rw [List.pairwise_append]
    refine ⟨ihl hBl, ?_, ?_⟩
    · rw [List.pairwise_cons]
      exact ⟨fun b hb => (forallKeys_iff_mem _ r).mp hbr b hb, ihr hBr⟩
    · intro x hx y hy
      have hxn : strcmp x n = .lt := (forallKeys_iff_mem _ l).mp hbl x hx
      rcases List.mem_cons.mp hy with rfl | hy'
      · exact hxn
      · exact strcmp_lt_trans _ _ _ hxn ((forallKeys_iff_mem _ r).mp hbr y hy')

theorem ordering_beq_iff : ∀ a b : Ordering, (a == b) = true ↔ a = b := by
  intro a b
  cases a <;> cases b <;> decide

theorem pairwise_keysSorted : ∀ l : List (List Char),
    List.Pairwise (fun a b => strcmp a b = .lt) l → keysSorted l = true := by
  intro l
  induction l with
  | nil => intro _; rfl
  | cons a rest ih =>
    intro hp
    cases rest with
    | nil => rfl
    | cons b rest' =>
      rw [List.pairwise_cons] at hp
      have hab : strcmp a b = .lt := hp.1 b (by simp)
      have hb : (strcmp a b == Ordering.lt) = true := by rw [hab]; rfl
      simp only [keysSorted, hb, Bool.true_and]
      exact ih hp.2

theorem pairwise_lt_nodup : ∀ l : List (List Char),
    List.Pairwise (fun a b => strcmp a b = .lt) l → l.Nodup :=
  fun _ h => h.imp (fun hab => strcmp_lt_ne _ _ hab)

theorem allKeysB_eq : ∀ (q : List Char → Bool) (t : Node),
    allKeysB q t = true ↔ ForallKeys (fun k => q k = true) t := by
  intro q t
  induction t with
  | nil => simp [allKeysB, ForallKeys]
  | node n v l r ihl ihr =>
    simp [allKeysB, ForallKeys, ihl, ihr, Bool.and_eq_true, and_assoc]

theorem bstb_eq : ∀ t, BSTb t = true ↔ BST t := by
  intro t
  induction t with
  | nil => simp [BSTb, BST]
  | node n v l r ihl ihr =>
    simp [BSTb, BST, Bool.and_eq_true, ihl, ihr, allKeysB_eq, forallKeys_iff_mem,
      ordering_beq_iff, and_assoc]

/-- Claim C2 counterexample: the claim fails for arbitrary `db_add` arguments.
After `db_add` of a 255-byte key and then `db_add` of the corresponding
256-byte key (which passes `node_constructor`'s `> 256` length test but is
truncated to 255 bytes on store), the tree holds two adjacent equal keys: the
in-order traversal is not strictly increasing, keys are not unique, and the
node-local BST order fails. -/
theorem C2_counterexample :
    keysSorted (inorderKeys (applyOps head0
      [.add true (List.replicate 255 'a') ['v'],
       .add true (List.replicate 256 'a') ['w']])) = false ∧
    BSTb (applyOps head0
      [.add true (List.replicate 255 'a') ['v'],
       .add true (List.replicate 256 'a') ['w']]) = false := by
  constructor <;> decide

/-- Claim C2 (amended): for every finite sequence of db_add and db_remove
operations applied to the initially empty tree, in which every db_add's key
argument is a token the command interpreter could produce (nonempty and at
most 255 bytes), the BST order invariant holds afterward: node-locally
(`BSTb`), the in-order traversal of the whole tree (head sentinel first) is
strictly increasing under `strcmp`, and keys are unique. -/
theorem C2_bst_invariant (ops : List Op) (h : ops.all Op.validb = true) :
    BSTb (applyOps head0 ops) = true ∧
    keysSorted (inorderKeys (applyOps head0 ops)) = true ∧
    (inorderKeys (applyOps head0 ops)).Nodup := by
  obtain ⟨hbst, _⟩ := dbInv_applyOps ops head0 h dbInv_head0
  have hp := bst_pairwise _ hbst
  exact ⟨(bstb_eq _).mpr hbst, pairwise_keysSorted _ hp, pairwise_lt_nodup _ hp⟩

/-- Witness for C2 (amended): a concrete add/add/remove sequence satisfies
the invariant. -/
theorem C2_bst_invariant_witness :
    BSTb (applyOps head0
      [Op.add true ['x'] ['1'], Op.add true ['b'] ['2'], Op.remove ['x']]) = true ∧
    keysSorted (inorderKeys (applyOps head0
      [Op.add true ['x'] ['1'], Op.add true ['b'] ['2'], Op.remove ['x']])) = true ∧
    (inorderKeys (applyOps head0
      [Op.add true ['x'] ['1'], Op.add true ['b'] ['2'], Op.remove ['x']])).Nodup :=
  C2_bst_invariant
    [Op.add true ['x'] ['1'], Op.add true ['b'] ['2'], Op.remove ['x']] (by decide)

/-!
## Claim C6: shutdown ordering
-/

theorem countP_set_get (p : WLoc → Bool) :
    ∀ (ws : List WLoc) (i : Nat) (x y : WLoc), ws.get? i = some y →
      (ws.set i x).countP p + (if p y then 1 else 0) =
        ws.countP p + (if p x then 1 else 0) := by
  intro ws
  induction ws with
  | nil => intro i x y h; simp at h
  | cons a l ih =>
    intro i x y h
    cases i with
    | zero =>
      obtain rfl : a = y := by simpa using h
      simp only [List.set_cons_zero, List.countP_cons]
      omega
    | succ n =>
      simp only [List.get?_cons_succ] at h
      simp only [List.set_cons_succ, List.countP_cons]
      have := ih n x y h
      omega

theorem countP_pos_get (p : WLoc → Bool) :
    ∀ (ws : List WLoc) (i : Nat) (y : WLoc), ws.get? i = some y → p y = true →
      0 < ws.countP p := by
  intro ws
  induction ws with
  | nil => intro i y h _; simp at h
  | cons a l ih =>
    intro i y h hp
    cases i with
    | zero =>
      obtain rfl : a = y := by simpa using h
      simp [List.countP_cons, hp]
    | succ n =>
      simp only [List.get?_cons_succ] at h
      have := ih n y h hp
      simp only [List.countP_cons]
      omega

theorem srvInv_step : ∀ s s', SStepNoSig s s' → SrvInv s → SrvInv s' := by
  intro s s' hns hinv
  obtain ⟨hstep, hside⟩ := hns
  cases hstep with
  | spawn a c ws m sl =>
    obtain ⟨h1, h2, h3⟩ := hinv
    refine ⟨?_, h2, h3⟩
    have h1' : c = activeCount ws := h1
    show c = activeCount (ws ++ [WLoc.start])
    simp [activeCount, List.countP_append, isActiveW, h1', List.countP_cons]
  | admitYes c ws m sl i h =>
    obtain ⟨h1, h2, h3⟩ := hinv
    have h1' : c = activeCount ws := h1
    have hset := countP_set_get isActiveW ws i .serving .start h
    refine ⟨?_, fun hm => h2 hm, fun hm => ?_⟩
    · show c + 1 = activeCount (ws.set i WLoc.serving)
      simp [isActiveW] at hset
      simp only [activeCount] at h1' ⊢
      omega
    · exfalso
      have hne : m ≠ MLoc.running := by
        rcases hm with hm | hm
        · have hm' : m = MLoc.teardown := hm
          rw [hm']; simp
        · have hm' : m = MLoc.done := hm
          rw [hm']; simp
      have hfalse : true = false := h2 hne
      simp at hfalse
  | admitNo c ws m sl i h =>
    obtain ⟨h1, h2, h3⟩ := hinv
    have h1' : c = activeCount ws := h1
    have hset := countP_set_get isActiveW ws i .gone .start h
    refine ⟨?_, fun hm => h2 hm, fun hm => h3 hm⟩
    show c = activeCount (ws.set i WLoc.gone)
    simp [isActiveW] at hset
    simp only [activeCount] at h1' ⊢
    omega
  | enterDb a c ws m sl i h =>
    obtain ⟨h1, h2, h3⟩ := hinv
    have h1' : c = activeCount ws := h1
    have hset := countP_set_get isActiveW ws i .inDb .serving h
    refine ⟨?_, fun hm => h2 hm, fun hm => h3 hm⟩
    show c = activeCount (ws.set i WLoc.inDb)
    simp [isActiveW] at hset
    simp only [activeCount] at h1' ⊢
    omega
  | exitDb a c ws m sl i h =>
    obtain ⟨h1, h2, h3⟩ := hinv
    have h1' : c = activeCount ws := h1
    have hset := countP_set_get isActiveW ws i .serving .inDb h
    refine ⟨?_, fun hm => h2 hm, fun hm => h3 hm⟩
    show c = activeCount (ws.set i WLoc.serving)
    simp [isActiveW] at hset
    simp only [activeCount] at h1' ⊢
    omega
  | leaveLoop a c ws m sl i h =>
    obtain ⟨h1, h2, h3⟩ := hinv
    have h1' : c = activeCount ws := h1
    have hset := countP_set_get isActiveW ws i .cleaning .serving h
    refine ⟨?_, fun hm => h2 hm, fun hm => h3 hm⟩
    show c = activeCount (ws.set i WLoc.cleaning)
    simp [isActiveW] at hset
    simp only [activeCount] at h1' ⊢
    omega
  | finishCleanup a c ws m sl i h =>
    obtain ⟨h1, h2, h3⟩ := hinv
    have h1' : c = activeCount ws := h1
    have hset := countP_set_get isActiveW ws i .gone .cleaning h
    have hpos := countP_pos_get isActiveW ws i .cleaning h (by rfl)
    refine ⟨?_, fun hm => h2 hm, fun hm => ?_⟩
    · show c - 1 = activeCount (ws.set i WLoc.gone)
      simp [isActiveW] at hset
      simp only [activeCount] at h1' ⊢
      omega
    · have hc := h3 hm
      have hc' : c = 0 := hc
      show c - 1 = 0
      omega
  | mainEof a c ws sl =>
    obtain ⟨h1, h2, h3⟩ := hinv
    refine ⟨h1, fun _ => rfl, fun hm => ?_⟩
    exfalso
    rcases hm with hm | hm <;> exact absurd hm (by simp)
  | mainCancelAll a c ws sl =>
    obtain ⟨h1, h2, h3⟩ := hinv
    refine ⟨h1, fun _ => h2 (by simp), fun hm => ?_⟩
    exfalso
    rcases hm with hm | hm <;> exact absurd hm (by simp)
  | mainObserveZero a ws sl =>
    obtain ⟨h1, h2, h3⟩ := hinv
    exact ⟨h1, fun _ => h2 (by simp), fun _ => rfl⟩
  | mainFinish a c ws sl =>
    obtain ⟨h1, h2, h3⟩ := hinv
    exact ⟨h1, fun _ => h2 (by simp), fun _ => h3 (Or.inl rfl)⟩
  | sigDeactivate a c ws m =>
    obtain ⟨h1, h2, h3⟩ := hinv
    exact ⟨h1, fun _ => rfl, fun hm => h3 hm⟩
  | sigCancelWorkers a c ws m =>
    exact hinv
  | sigReactivate a c ws m =>
    obtain ⟨h1, h2, h3⟩ := hinv
    simp only [SrvState.sigLoc, SrvState.mainLoc] at hside
    refine ⟨h1, fun hne => ?_, fun hm => h3 hm⟩
    rcases hside with hs | hs
    · exact absurd hs (by simp)
    · exact absurd hs hne
  | sigNext a c ws m =>
    exact hinv

theorem srvReach_inv : ∀ s, SrvReachNoSig s → SrvInv s := by
  intro s h
  induction h with
  | refl => exact ⟨rfl, fun hm => absurd rfl hm, fun _ => rfl⟩
  | tail _ hstep ih => exact srvInv_step _ _ hstep ih

/-- Counterexample to claim C6 as stated: the claim's shutdown-ordering
property fails under the full interleaving, because monitor_signal — joined
only after the condition-wait loop (server.c:523) while the listener is
cancelled even later (server.c:527) — re-sets `server_active = 1`
(server.c:371) at the end of handling a SIGINT. Schedule: console EOF
(`delete_all` closes admission), cancel loop, then a SIGINT is handled to
completion during the shutdown wait (deactivate, cancel, reactivate), main
observes zero workers and proceeds to teardown, the listener accepts a new
connection, run_client admits it (`server_active` is 1 again), and the worker
enters a tree operation. The reached state has main at `db_cleanup` with
admission open and a worker inside the database: both the "stops admitting"
and the "teardown never runs while any worker could be executing a tree
operation" conjuncts are false. -/
theorem C6_counterexample :
    SrvReach ⟨true, 1, [WLoc.inDb], MLoc.teardown, SigLoc.restored⟩ ∧
    (⟨true, 1, [WLoc.inDb], MLoc.teardown, SigLoc.restored⟩ : SrvState).active = true ∧
    WLoc.inDb ∈ (⟨true, 1, [WLoc.inDb], MLoc.teardown, SigLoc.restored⟩ : SrvState).workers := by
  refine ⟨?_, rfl, by simp⟩
  have h1 : Relation.ReflTransGen SStep srvInit ⟨false, 0, [], .cancelling, .idle⟩ :=
    Relation.ReflTransGen.single (SStep.mainEof true 0 [] .idle)
  have h2 : Relation.ReflTransGen SStep srvInit ⟨false, 0, [], .waiting, .idle⟩ :=
    h1.tail (SStep.mainCancelAll false 0 [] .idle)
  have h3 : Relation.ReflTransGen SStep srvInit ⟨false, 0, [], .waiting, .deactivated⟩ :=
    h2.tail (SStep.sigDeactivate false 0 [] .waiting)
  have h4 : Relation.ReflTransGen SStep srvInit ⟨false, 0, [], .waiting, .cancelled⟩ :=
    h3.tail (SStep.sigCancelWorkers false 0 [] .waiting)
  have h5 : Relation.ReflTransGen SStep srvInit ⟨true, 0, [], .waiting, .restored⟩ :=
    h4.tail (SStep.sigReactivate false 0 [] .waiting)
  have h6 : Relation.ReflTransGen SStep srvInit ⟨true, 0, [], .teardown, .restored⟩ :=
    h5.tail (SStep.mainObserveZero true [] .restored)
  have h7 : Relation.ReflTransGen SStep srvInit ⟨true, 0, [WLoc.start], .teardown, .restored⟩ :=
    h6.tail (SStep.spawn true 0 [] .teardown .restored)
  have h8 : Relation.ReflTransGen SStep srvInit ⟨true, 1, [WLoc.serving], .teardown, .restored⟩ :=
    h7.tail (SStep.admitYes 0 [WLoc.start] .teardown .restored 0 rfl)
  exact h8.tail (SStep.enterDb true 1 [WLoc.serving] .teardown .restored 0 rfl)

/-- Claim C6, amended: provided no SIGINT handling step runs concurrently with
the shutdown sequence (every handler step happens while the console loop is
still running), in the interleaving model of server.c (main's end-of-input
path, delete_all, run_client, thread_cleanup, monitor_signal) every reachable
state in which the main thread has passed the condition-wait loop (is running
or has finished `db_cleanup`) has admission closed (`server_active = 0`), a
zero worker count, and no worker serving, executing a tree operation, or
still in `thread_cleanup`: teardown only runs once the active worker count
has reached zero and never while any worker could be executing a tree
operation. Without the proviso the claim is false: monitor_signal's
`server_active = 1` write (server.c:371) during the shutdown wait reopens
admission, as the counterexample schedule shows. -/
theorem C6_shutdown_order (s : SrvState) (h : SrvReachNoSig s)
    (hm : s.mainLoc = .teardown ∨ s.mainLoc = .done) :
    s.active = false ∧ s.count = 0 ∧
    ∀ w ∈ s.workers, w ≠ .serving ∧ w ≠ .inDb ∧ w ≠ .cleaning := by
  obtain ⟨h1, h2, h3⟩ := srvReach_inv s h
  have hact : s.active = false := h2 (by rcases hm with hm | hm <;> rw [hm] <;> simp)
  have hc : s.count = 0 := h3 hm
  have hcp : activeCount s.workers = 0 := by rw [← h1]; exact hc
  have hall := List.countP_eq_zero.mp hcp
  refine ⟨hact, hc, fun w hw => ?_⟩
  have hnw := hall w hw
  cases w <;> simp_all [isActiveW]

/-- Witness for C6: the state reached by mainEof, mainCancelAll,
mainObserveZero from startup with no workers and an idle signal handler. -/
theorem C6_shutdown_order_witness :
    (⟨false, 0, [], MLoc.teardown, SigLoc.idle⟩ : SrvState).active = false ∧
    (⟨false, 0, [], MLoc.teardown, SigLoc.idle⟩ : SrvState).count = 0 ∧
    ∀ w ∈ (⟨false, 0, [], MLoc.teardown, SigLoc.idle⟩ : SrvState).workers,
      w ≠ WLoc.serving ∧ w ≠ WLoc.inDb ∧ w ≠ WLoc.cleaning :=
  C6_shutdown_order ⟨false, 0, [], .teardown, .idle⟩
    (Relation.ReflTransGen.tail
      (Relation.ReflTransGen.tail
        (Relation.ReflTransGen.tail Relation.ReflTransGen.refl
          (And.intro (SStep.mainEof true 0 [] .idle) (Or.inl rfl)))
        (And.intro (SStep.mainCancelAll false 0 [] .idle) (Or.inl rfl)))
      (And.intro (SStep.mainObserveZero false [] .idle) (Or.inl rfl)))
    (Or.inl rfl)

/-!
## Claim C7: interrupt handling and admission
-/

theorem sigReach_inv : ∀ s, SigReach s →
    ((s.loc = .idle ∨ s.loc = .restored) → s.active = true) := by
  intro s h
  induction h with
  | refl => intro _; rfl
  | tail _ hstep ih =>
    cases hstep with
    | deactivate a =>
      intro hl
      rcases hl with hl | hl <;> exact absurd hl (by simp)
    | cancelWorkers a =>
      intro hl
      rcases hl with hl | hl <;> exact absurd hl (by simp)
    | reactivate a => intro _; rfl
    | nextSignal a => intro _; exact ih (Or.inr rfl)

/-- Claim C7 counterexample: in the SIGINT-handler model (monitor_signal and
delete_all of server.c), the state right after `delete_all` sets
`server_active = 0` is reachable while handling an interrupt, and in that
state run_client's admission check refuses a newly arriving connection — the
accepting flag IS observed false because of an interrupt, contradicting the
claim. -/
theorem C7_counterexample :
    SigReach ⟨false, .deactivated⟩ ∧ run_client_admits ⟨false, .deactivated⟩ = false :=
  ⟨Relation.ReflTransGen.tail Relation.ReflTransGen.refl (SigStep.deactivate true), rfl⟩

/-- Claim C7 (amended): handling an external interrupt mass-cancels only the
currently registered workers and does not shut the server down: once the
handler has finished (monitor_signal restored `server_active = 1`) — and
whenever no interrupt is mid-handling — a newly arriving connection is
admitted. During handling, however, between delete_all's deactivation and the
monitor's restoration, an arriving connection is refused. -/
theorem C7_interrupt_admission (s : SigSt) (h : SigReach s)
    (hl : s.loc = .idle ∨ s.loc = .restored) :
    run_client_admits s = true :=
  sigReach_inv s h hl

/-- Witness for C7 (amended): after a full deactivate/cancel/reactivate
handling round, admission is open. -/
theorem C7_interrupt_admission_witness :
    run_client_admits ⟨true, .restored⟩ = true :=
  C7_interrupt_admission ⟨true, .restored⟩
    (Relation.ReflTransGen.tail
      (Relation.ReflTransGen.tail
        (Relation.ReflTransGen.tail Relation.ReflTransGen.refl (SigStep.deactivate true))
        (SigStep.cancelWorkers false))
      (SigStep.reactivate false))
    (Or.inr rfl)

/-!
## Claim C8: the stop/go barrier is a level gate
-/

/-- Claim C8: the barrier of server.c is a level gate. The while-condition
check of `client_control_wait` (performed with the mutex held, both on entry
and after every wake-up) sends a worker into `pthread_cond_wait` iff the
`stopped` flag is currently true, and lets it pass iff the flag is false — so
a worker that wakes into an already-paused state blocks again;
`client_control_release` sets the flag to false and its broadcast wakes every
worker currently blocked on the condition variable (each woken worker
re-checks the flag). -/
theorem C8_barrier_level_gate :
    (∀ b : Bool, wait_check b = .blocked ↔ b = true) ∧
    (∀ b : Bool, wait_check b = .passed ↔ b = false) ∧
    (∀ s : GateSt, (client_control_release s).stopped = false ∧
      ∀ i : Nat, s.workers.get? i = some .blocked →
        (client_control_release s).workers.get? i = some .atCheck) ∧
    (∀ s : GateSt, ∀ i : Nat, s.workers.get? i = some .blocked →
      (client_control_stop (client_control_release s)).workers.get? i = some .atCheck ∧
      wait_check (client_control_stop (client_control_release s)).stopped = .blocked) := by
  refine ⟨?_, ?_, ?_, ?_⟩
  · intro b; cases b <;> simp [wait_check]
  · intro b; cases b <;> simp [wait_check]
  · intro s
    refine ⟨rfl, ?_⟩
    intro i h
    simp only [client_control_release, List.get?_map, h, Option.map_some', wakeOne]
  · intro s i h
    refine ⟨?_, rfl⟩
    simp only [client_control_stop, client_control_release, List.get?_map, h,
      Option.map_some', wakeOne]

/-- Witness for C8: a two-worker barrier state with worker 0 blocked. -/
theorem C8_barrier_level_gate_witness :
    (client_control_release ⟨true, [GateLoc.blocked, GateLoc.outside]⟩).stopped = false ∧
    (client_control_release ⟨true, [GateLoc.blocked, GateLoc.outside]⟩).workers.get? 0 =
      some GateLoc.atCheck ∧
    wait_check true = GateLoc.blocked :=
  ⟨(C8_barrier_level_gate.2.2.1 ⟨true, [.blocked, .outside]⟩).1,
   (C8_barrier_level_gate.2.2.1 ⟨true, [.blocked, .outside]⟩).2 0 (by decide),
   (C8_barrier_level_gate.1 true).mpr rfl⟩

/-!
## Claim C9: lock balance of db_remove

One-step branch equations for the traced search and chain walk.
-/

theorem removeSearchT_lt_nil (name pn pv : List Char) (pr : Node) (pp : List Bool)
    (h : strcmp name pn = .lt) :
    removeSearchT name (.node pn pv .nil pr) pp = (none, pp, []) := by
  simp only [removeSearchT, if_pos h]

theorem removeSearchT_lt_found (name pn pv cn cv : List Char) (cl cr pr : Node) (pp : List Bool)
    (h : strcmp name pn = .lt) (he : strcmp name cn = .eq) :
    removeSearchT name (.node pn pv (.node cn cv cl cr) pr) pp =
      (some (.node cn cv cl cr, pp ++ [false]), pp, [.acq (pp ++ [false])]) := by
  simp only [removeSearchT, if_pos h, if_pos he]

theorem removeSearchT_lt_rec (name pn pv cn cv : List Char) (cl cr pr : Node) (pp : List Bool)
    (h : strcmp name pn = .lt) (he : ¬ strcmp name cn = .eq) :
    removeSearchT name (.node pn pv (.node cn cv cl cr) pr) pp =
      ((removeSearchT name (.node cn cv cl cr) (pp ++ [false])).1,
       (removeSearchT name (.node cn cv cl cr) (pp ++ [false])).2.1,
       .acq (pp ++ [false]) :: .rel pp ::
         (removeSearchT name (.node cn cv cl cr) (pp ++ [false])).2.2) := by
  simp only [removeSearchT, if_pos h, if_neg he]

theorem removeSearchT_ge_nil (name pn pv : List Char) (pl : Node) (pp : List Bool)
    (h : ¬ strcmp name pn = .lt) :
    removeSearchT name (.node pn pv pl .nil) pp = (none, pp, []) := by
  simp only [removeSearchT, if_neg h]

theorem removeSearchT_ge_found (name pn pv cn cv : List Char) (pl cl cr : Node) (pp : List Bool)
    (h : ¬ strcmp name pn = .lt) (he : strcmp name cn = .eq) :
    removeSearchT name (.node pn pv pl (.node cn cv cl cr)) pp =
      (some (.node cn cv cl cr, pp ++ [true]), pp, [.acq (pp ++ [true])]) := by
  simp only [removeSearchT, if_neg h, if_pos he]

theorem removeSearchT_ge_rec (name pn pv cn cv : List Char) (pl cl cr : Node) (pp : List Bool)
    (h : ¬ strcmp name pn = .lt) (he : ¬ strcmp name cn = .eq) :
    removeSearchT name (.node pn pv pl (.node cn cv cl cr)) pp =
      ((removeSearchT name (.node cn cv cl cr) (pp ++ [true])).1,
       (removeSearchT name (.node cn cv cl cr) (pp ++ [true])).2.1,
       .acq (pp ++ [true]) :: .rel pp ::
         (removeSearchT name (.node cn cv cl cr) (pp ++ [true])).2.2) := by
  simp only [removeSearchT, if_neg h, if_neg he]

theorem chainT_lnil (n v : List Char) (r : Node) (np : List Bool) :
    chainT (.node n v .nil r) np = (np, []) := rfl

theorem chainT_lnode (n v a b : List Char) (c d r : Node) (np : List Bool) :
    chainT (.node n v (.node a b c d) r) np =
      ((chainT (.node a b c d) (np ++ [false])).1,
        .acq (np ++ [false]) :: .rel np :: (chainT (.node a b c d) (np ++ [false])).2) := rfl

theorem path_ne_extend : ∀ (pp : List Bool) (d : Bool), pp ++ [d] ≠ pp := by
  intro pp d h
  have := congrArg List.length h
  simp at this

theorem runHeld_append : ∀ (a b : List Ev) (h : List (List Bool)),
    runHeld (a ++ b) h = (runHeld a h).bind (runHeld b) := by
  intro a
  induction a with
  | nil => intro b h; rfl
  | cons e es ih =>
    intro b h
    cases e with
    | acq p =>
      by_cases hp : p ∈ h
      · simp [runHeld, hp]
      · simp [runHeld, hp, ih]
    | rel p =>
      by_cases hp : p ∈ h
      · simp [runHeld, hp, ih]
      · simp [runHeld, hp]

theorem runHeld_acq (p : List Bool) (es : List Ev) (h : List (List Bool)) (hp : p ∉ h) :
    runHeld (Ev.acq p :: es) h = runHeld es (p :: h) := by
  simp [runHeld, hp]

theorem runHeld_enter_rest (np : List Bool) (d : Bool) (rest : List (List Bool)) (es : List Ev)
    (hnotin : (np ++ [d]) ∉ np :: rest) :
    runHeld (Ev.acq (np ++ [d]) :: Ev.rel np :: es) (np :: rest) =
      runHeld es ((np ++ [d]) :: rest) := by
  have hin : np ∈ (np ++ [d]) :: np :: rest := by simp
  have hne : ((np ++ [d]) == np) = false := by
    simp [path_ne_extend np d]
  simp [runHeld, hnotin, hin, List.erase_cons, hne]

theorem runHeld_start (es : List Ev) : runHeld (Ev.acq [] :: es) [] = runHeld es [[]] := by
  simp [runHeld]

theorem runHeld_rel_single (lp : List Bool) : runHeld [Ev.rel lp] [lp] = some [] := by
  simp [runHeld]

theorem runHeld_rel_pair (lp : List Bool) (b : Bool) :
    runHeld [Ev.rel lp, Ev.rel (lp ++ [b])] [lp ++ [b], lp] = some [] := by
  have hne : ((lp ++ [b]) == lp) = false := by simp [path_ne_extend lp b]
  simp [runHeld, List.erase_cons, hne]

theorem runHeld_rel_triple (fp dp lp : List Bool) :
    runHeld [Ev.rel fp, Ev.rel dp, Ev.rel lp] [fp, dp, lp] = some [] := by
  simp [runHeld, List.erase_cons]

theorem removeSearchT_run (name : List Char) :
    ∀ (t : Node) (pp : List Bool),
      ((removeSearchT name t pp).1 = none →
        runHeld (removeSearchT name t pp).2.2 [pp] =
          some [(removeSearchT name t pp).2.1]) ∧
      (∀ d dp, (removeSearchT name t pp).1 = some (d, dp) →
        runHeld (removeSearchT name t pp).2.2 [pp] =
          some [dp, (removeSearchT name t pp).2.1] ∧
        (∃ b, dp = (removeSearchT name t pp).2.1 ++ [b]) ∧ d ≠ .nil) := by
  intro t
  induction t with
  | nil =>
    intro pp
    exact ⟨fun _ => rfl, fun d dp h => absurd h (by simp [removeSearchT])⟩
  | node pn pv pl pr ihl ihr =>
    intro pp
    by_cases hlt : strcmp name pn = .lt
    · cases pl with
      | nil =>
        rw [removeSearchT_lt_nil name pn pv pr pp hlt]
        exact ⟨fun _ => rfl, fun d dp h => absurd h (by simp)⟩
      | node cn cv cl cr =>
        by_cases heq : strcmp name cn = .eq
        · rw [removeSearchT_lt_found name pn pv cn cv cl cr pr pp hlt heq]
          refine ⟨fun h => absurd h (by simp), ?_⟩
          intro d dp h
          have h' := Option.some.inj h
          injection h' with h1 h2
          subst h1
          subst h2
          refine ⟨?_, ⟨false, rfl⟩, by simp⟩
          have h1 : (pp ++ [false]) ∉ ([pp] : List (List Bool)) := by
            simp [path_ne_extend pp false]
          simp [runHeld, h1]
        · rw [removeSearchT_lt_rec name pn pv cn cv cl cr pr pp hlt heq]
          have hnotin : (pp ++ [false]) ∉ ([pp] : List (List Bool)) := by
            simp [path_ne_extend pp false]
          constructor
          · intro h
            rw [runHeld_enter_rest pp false [] _ hnotin]
            exact (ihl (pp ++ [false])).1 h
          · intro d dp h
            obtain ⟨ha, hb, hc⟩ := (ihl (pp ++ [false])).2 d dp h
            rw [runHeld_enter_rest pp false [] _ hnotin]
            exact ⟨ha, hb, hc⟩
    · cases pr with
      | nil =>
        rw [removeSearchT_ge_nil name pn pv pl pp hlt]
        exact ⟨fun _ => rfl, fun d dp h => absurd h (by simp)⟩
      | node cn cv cl cr =>
        by_cases heq : strcmp name cn = .eq
        · rw [removeSearchT_ge_found name pn pv cn cv pl cl cr pp hlt heq]
          refine ⟨fun h => absurd h (by simp), ?_⟩
          intro d dp h
          have h' := Option.some.inj h
          injection h' with h1 h2
          subst h1
          subst h2
          refine ⟨?_, ⟨true, rfl⟩, by simp⟩
          have h1 : (pp ++ [true]) ∉ ([pp] : List (List Bool)) := by
            simp [path_ne_extend pp true]
          simp [runHeld, h1]
        · rw [removeSearchT_ge_rec name pn pv cn cv pl cl cr pp hlt heq]
          have hnotin : (pp ++ [true]) ∉ ([pp] : List (List Bool)) := by
            simp [path_ne_extend pp true]
          constructor
          · intro h
            rw [runHeld_enter_rest pp true [] _ hnotin]
            exact (ihr (pp ++ [true])).1 h
          · intro d dp h
            obtain ⟨ha, hb, hc⟩ := (ihr (pp ++ [true])).2 d dp h
            rw [runHeld_enter_rest pp true [] _ hnotin]
            exact ⟨ha, hb, hc⟩

theorem chainT_run : ∀ t, t ≠ .nil → ∀ (np : List Bool) (rest : List (List Bool)),
    (∀ q ∈ rest, q.length ≤ np.length) →
    runHeld (chainT t np).2 (np :: rest) = some ((chainT t np).1 :: rest) := by
  intro t
  induction t with
  | nil => intro h; exact absurd rfl h
  | node n v l r ihl ihr =>
    intro _ np rest hrest
    cases l with
    | nil => rw [chainT_lnil]; rfl
    | node a b c d =>
      rw [chainT_lnode]
      have hnotin : (np ++ [false]) ∉ np :: rest := by
        intro hmem
        rcases List.mem_cons.mp hmem with h | h
        · exact path_ne_extend np false h
        · have h2 := hrest _ h
          simp at h2
      rw [runHeld_enter_rest np false rest _ hnotin]
      exact ihl (by simp) (np ++ [false]) rest
        (fun q hq => le_trans (hrest q hq) (by simp))

/-- Claim C9: every `db_remove` call releases, exactly once before returning,
every node write lock it acquired — the head lock, the locks taken while
searching, the parent's and target's locks, and every lock taken along the
successor chain in the two-child case — on every exit path, including the
not-found path: replaying the lock-event trace of the call against a
held-lock set never double-acquires, never releases an unheld lock, and ends
with no lock held. -/
theorem C9_remove_lock_balance : ∀ (t : Node) (name : List Char),
    runHeld (db_removeT t name) [] = some [] := by
  intro t name
  rcases hres : (removeSearchT name t []).1 with _ | ⟨d, dp⟩
  · have hrun := (removeSearchT_run name t []).1 hres
    simp only [db_removeT, hres]
    rw [runHeld_append, runHeld_start, hrun, Option.some_bind]
    exact runHeld_rel_single _
  · obtain ⟨hrun, ⟨bb, hdp⟩, hdne⟩ := (removeSearchT_run name t []).2 d dp hres
    subst hdp
    cases d with
    | nil => exact absurd rfl hdne
    | node dn dv dl dr =>
      cases dr with
      | nil =>
        simp only [db_removeT, hres]
        rw [runHeld_append, runHeld_start, hrun, Option.some_bind]
        exact runHeld_rel_pair _ bb
      | node a2 b2 c2 d2 =>
        cases dl with
        | nil =>
          simp only [db_removeT, hres]
          rw [runHeld_append, runHeld_start, hrun, Option.some_bind]
          exact runHeld_rel_pair _ bb
        | node e2 f2 g2 h2 =>
          simp only [db_removeT, hres]
          have hnotin : ((removeSearchT name t []).2.1 ++ [bb]) ++ [true] ∉
              ([(removeSearchT name t []).2.1 ++ [bb], (removeSearchT name t []).2.1] :
                List (List Bool)) := by
            intro hmem
            rcases List.mem_cons.mp hmem with h | h
            · exact path_ne_extend _ true h
            · rcases List.mem_cons.mp h with h' | h'
              · have := congrArg List.length h'
                simp at this
              · simp at h'
          have hchain := chainT_run (.node a2 b2 c2 d2) (by simp)
            (((removeSearchT name t []).2.1 ++ [bb]) ++ [true])
            [(removeSearchT name t []).2.1 ++ [bb], (removeSearchT name t []).2.1]
            (by
              intro q hq
              rcases List.mem_cons.mp hq with rfl | hq'
              · simp
              · rcases List.mem_cons.mp hq' with rfl | hq''
                · simp
                · simp at hq'')
          rw [runHeld_append, runHeld_append, runHeld_start, hrun, Option.some_bind,
            runHeld_acq _ _ _ hnotin, hchain, Option.some_bind]
          exact runHeld_rel_triple _ _ _

/-- Consistency of the two embeddings of db_remove's search: the traced search
(`removeSearchT`, lock events) reports "not found" exactly when the functional
search (`removeSearch`, tree update) does — both follow the same comparisons
of db.c's `search`. -/
theorem removeSearchT_none_iff (name : List Char) :
    ∀ (t : Node) (pp : List Bool),
      (removeSearchT name t pp).1 = none ↔ removeSearch name t = none := by
  intro t
  induction t with
  | nil => intro pp; simp [removeSearchT, removeSearch]
  | node pn pv pl pr ihl ihr =>
    intro pp
    by_cases hlt : strcmp name pn = .lt
    · cases pl with
      | nil =>
        rw [removeSearchT_lt_nil name pn pv pr pp hlt,
          removeSearch_lt_nil name pn pv pr hlt]
        simp
      | node cn cv cl cr =>
        by_cases heq : strcmp name cn = .eq
        · rw [removeSearchT_lt_found name pn pv cn cv cl cr pr pp hlt heq,
            removeSearch_lt_node name pn pv cn cv cl cr pr hlt, if_pos heq]
          simp
        · rw [removeSearchT_lt_rec name pn pv cn cv cl cr pr pp hlt heq,
            removeSearch_lt_node name pn pv cn cv cl cr pr hlt, if_neg heq]
          simp only [Option.map_eq_none']
          exact ihl (pp ++ [false])
    · cases pr with
      | nil =>
        rw [removeSearchT_ge_nil name pn pv pl pp hlt,
          removeSearch_ge_nil name pn pv pl hlt]
        simp
      | node cn cv cl cr =>
        by_cases heq : strcmp name cn = .eq
        · rw [removeSearchT_ge_found name pn pv cn cv pl cl cr pp hlt heq,
            removeSearch_ge_node name pn pv cn cv pl cl cr hlt, if_pos heq]
          simp
        · rw [removeSearchT_ge_rec name pn pv cn cv pl cl cr pp hlt heq,
            removeSearch_ge_node name pn pv cn cv pl cl cr hlt, if_neg heq]
          simp only [Option.map_eq_none']
          exact ihr (pp ++ [true])
